import Mathlib

/-!
Shallow embedding of the `pkdos`/`krun` fleet file-synchronization engine:
the remote agent (`agent/fsync/main.go`), the CDC sync orchestrator
(`pkg/cdc/sync_pods.go`) and the tar packer (`pkg/files/tar.go`),
with theorems settling the specification claims about them.

Bytes are modelled as `Nat` (values < 256); byte streams as `List Nat`.
-/

namespace Krun

set_option maxRecDepth 100000

/-! ## SHA-256 (model of Go `crypto/sha256`)

Executable implementation of SHA-256 over byte lists, used by the chunk
integrity checks.  All 32-bit arithmetic is `Nat` reduced mod `2^32`. -/

def u32 (n : Nat) : Nat := n % 4294967296

def rotr32 (x n : Nat) : Nat := u32 ((x >>> n) ||| (x <<< (32 - n)))

def shaK : Array Nat := #[
  1116352408, 1899447441, 3049323471, 3921009573, 961987163,
  1508970993, 2453635748, 2870763221, 3624381080, 310598401,
  607225278, 1426881987, 1925078388, 2162078206, 2614888103,
  3248222580, 3835390401, 4022224774, 264347078, 604807628,
  770255983, 1249150122, 1555081692, 1996064986, 2554220882,
  2821834349, 2952996808, 3210313671, 3336571891, 3584528711,
  113926993, 338241895, 666307205, 773529912, 1294757372,
  1396182291, 1695183700, 1986661051, 2177026350, 2456956037,
  2730485921, 2820302411, 3259730800, 3345764771, 3516065817,
  3600352804, 4094571909, 275423344, 430227734, 506948616,
  659060556, 883997877, 958139571, 1322822218, 1537002063,
  1747873779, 1955562222, 2024104815, 2227730452, 2361852424,
  2428436474, 2756734187, 3204031479, 3329325298]

def shaH0 : Array Nat := #[
  1779033703, 3144134277, 1013904242, 2773480762, 1359893119,
  2600822924, 528734635, 1541459225]

/-- Big-endian 8-byte encoding of the bit length, as in the SHA-256 padding. -/
def lenBytes (bitLen : Nat) : List Nat :=
  (List.range 8).map (fun i => (bitLen >>> (8 * (7 - i))) % 256)

/-- SHA-256 message padding: append 0x80, zeros to 56 mod 64, then the
64-bit big-endian bit length. -/
def shaPad (msg : List Nat) : List Nat :=
  let L := msg.length
  let z := (64 - ((L + 9) % 64)) % 64
  msg ++ [0x80] ++ List.replicate z 0 ++ lenBytes (L * 8)

/-- Group bytes into big-endian 32-bit words. -/
def bytesToWords : List Nat → List Nat
  | a :: b :: c :: d :: rest => (((a * 256 + b) * 256 + c) * 256 + d) :: bytesToWords rest
  | _ => []

/-- Split a word list into blocks of 16 words (fuel-based so it reduces). -/
def toBlocksAux : Nat → List Nat → List (List Nat)
  | 0, _ => []
  | _, [] => []
  | fuel + 1, l => l.take 16 :: toBlocksAux fuel (l.drop 16)

def toBlocks (l : List Nat) : List (List Nat) := toBlocksAux l.length l

/-- Extend a 16-word block to the 64-word message schedule (adds `k` words). -/
def extendW (w : Array Nat) : Nat → Array Nat
  | 0 => w
  | k + 1 =>
    let i := w.size
    let x15 := w.get! (i - 15)
    let x2 := w.get! (i - 2)
    let s0 := (rotr32 x15 7) ^^^ (rotr32 x15 18) ^^^ (x15 >>> 3)
    let s1 := (rotr32 x2 17) ^^^ (rotr32 x2 19) ^^^ (x2 >>> 10)
    extendW (w.push (u32 (w.get! (i - 16) + s0 + w.get! (i - 7) + s1))) k

/-- One round of the SHA-256 compression function; state is the 8-element
working vector `[a,b,c,d,e,f,g,h]`. -/
def shaRound (st : Array Nat) (kw : Nat) : Array Nat :=
  let a := st.get! 0
  let b := st.get! 1
  let c := st.get! 2
  let d := st.get! 3
  let e := st.get! 4
  let f := st.get! 5
  let g := st.get! 6
  let hh := st.get! 7
  let S1 := (rotr32 e 6) ^^^ (rotr32 e 11) ^^^ (rotr32 e 25)
  let ch := (e &&& f) ^^^ ((4294967295 - e) &&& g)
  let t1 := u32 (hh + S1 + ch + kw)
  let S0 := (rotr32 a 2) ^^^ (rotr32 a 13) ^^^ (rotr32 a 22)
  let maj := (a &&& b) ^^^ (a &&& c) ^^^ (b &&& c)
  let t2 := u32 (S0 + maj)
  #[u32 (t1 + t2), a, b, c, u32 (d + t1), e, f, g]

def compressBlock (hs : Array Nat) (block : List Nat) : Array Nat :=
  let w := extendW block.toArray 48
  let st := (List.range 64).foldl (fun s i => shaRound s (u32 (shaK.get! i + w.get! i))) hs
  (Array.range 8).map (fun i => u32 (hs.get! i + st.get! i))

def wordToBytes (w : Nat) : List Nat :=
  [(w >>> 24) % 256, (w >>> 16) % 256, (w >>> 8) % 256, w % 256]

/-- SHA-256 digest of a byte list, as 32 bytes. -/
def sha256 (msg : List Nat) : List Nat :=
  let blocks := toBlocks (bytesToWords (shaPad msg))
  let final := blocks.foldl compressBlock shaH0
  final.toList.flatMap wordToBytes

def hexDigit (n : Nat) : Char :=
  if n < 10 then Char.ofNat (48 + n) else Char.ofNat (87 + n)

def byteToHex (b : Nat) : List Char := [hexDigit (b / 16), hexDigit (b % 16)]

/-- Lowercase hex encoding of a byte list (Go `hex.EncodeToString`). -/
def hexEncode (bs : List Nat) : String :=
  String.mk (bs.flatMap byteToHex)

/-- `hex.EncodeToString(sha256.Sum(data))`, the chunk naming function. -/
def sha256Hex (msg : List Nat) : String := hexEncode (sha256 msg)

/-- ASCII bytes of a string (all source strings involved are ASCII). -/
def strBytes (s : String) : List Nat := s.data.map Char.toNat

/-! ## Hex hash names -/

def isHexDigitChar (c : Char) : Bool :=
  (48 ≤ c.toNat && c.toNat ≤ 57) || (97 ≤ c.toNat && c.toNat ≤ 102)

/-- A valid chunk name: 64 lowercase hex characters. -/
def isHexHash (s : String) : Bool :=
  s.length == 64 && s.data.all isHexDigitChar

/-! ## Go `path/filepath` helpers (unix)

`filepath.Clean` written over slash-separated components: drop empty and
`.` components, resolve `..` against a stack (kept literally at the front
when there is nothing to pop and the path is relative, dropped at the root
when the path is rooted), then reassemble. -/

/-- Split a character list on a separator (structural, reduces in the
kernel; Go `strings.Split` for a one-character separator). -/
def splitCharAux (sep : Char) : List Char → List Char → List (List Char)
  | acc, [] => [acc.reverse]
  | acc, c :: rest =>
    if c = sep then acc.reverse :: splitCharAux sep [] rest
    else splitCharAux sep (c :: acc) rest

def splitSlash (s : String) : List String :=
  (splitCharAux '/' [] s.data).map String.mk

def startsWithSlash (s : String) : Bool :=
  match s.data with
  | '/' :: _ => true
  | _ => false

def joinSlash : List String → String
  | [] => ""
  | [x] => x
  | x :: xs => x ++ "/" ++ joinSlash xs

def cleanCompsAux (rooted : Bool) : List String → List String → List String
  | acc, [] => acc.reverse
  | acc, c :: rest =>
    if c = ".." then
      match acc with
      | [] => if rooted then cleanCompsAux rooted [] rest
              else cleanCompsAux rooted [".."] rest
      | a :: bs => if a = ".." then cleanCompsAux rooted (".." :: a :: bs) rest
                   else cleanCompsAux rooted bs rest
    else cleanCompsAux rooted (c :: acc) rest

/-- Model of Go `filepath.Clean` (unix rules). -/
def goClean (path : String) : String :=
  if path = "" then "." else
  let rooted := startsWithSlash path
  let comps := (splitSlash path).filter (fun c => c ≠ "" && c ≠ ".")
  let out := cleanCompsAux rooted [] comps
  let joined := joinSlash out
  if rooted then "/" ++ joined
  else if joined = "" then "." else joined

/-- Model of Go `filepath.Base` (unix rules). -/
def goBase (path : String) : String :=
  if path = "" then "." else
  match ((splitSlash path).filter (fun c => c ≠ "")).getLast? with
  | some c => c
  | none => if startsWithSlash path then "/" else "."

/-! ## Manifest (`pkg/cdc/sync_pods.go` / `agent/fsync/main.go`)

`ChunkInfo.Data` carries no JSON tag (`json:"-"`), so the JSON form is
exactly `(hash, size)`; we model the serialized fields only. -/

structure ChunkInfo where
  hash : String
  size : Nat
deriving Repr, DecidableEq

structure Manifest where
  chunks : List ChunkInfo
deriving Repr, DecidableEq

/-! ### Go `encoding/json` encoder, restricted to the manifest schema

`json.Marshal` on `Manifest`: struct fields in declaration order with
lowercase tags, no whitespace, nil slice encoded as `null`, strings escaped
per Go (backslash, quote, control characters, and the HTML characters
`<`, `>`, `&`). `json.NewEncoder(..).Encode` appends a newline. -/

def hexDigitUpperless (n : Nat) : Char := hexDigit n

def uEscape (n : Nat) : List Char :=
  ['\\', 'u', '0', '0', hexDigit (n / 16 % 16), hexDigit (n % 16)]

def goJsonEscapeChar (c : Char) : List Char :=
  if c = '"' then ['\\', '"']
  else if c = '\\' then ['\\', '\\']
  else if c = '\n' then ['\\', 'n']
  else if c = '\r' then ['\\', 'r']
  else if c = '\t' then ['\\', 't']
  else if c.toNat < 32 || c = '<' || c = '>' || c = '&' then uEscape c.toNat
  else [c]

def encodeJsonStr (s : String) : String :=
  String.mk ('"' :: s.data.flatMap goJsonEscapeChar ++ ['"'])

/-- Decimal digits of `n` (fuel-based so it reduces in the kernel). -/
def natDecAux : Nat → Nat → List Char
  | 0, _ => []
  | fuel + 1, n =>
    if n < 10 then [hexDigit n]
    else natDecAux fuel (n / 10) ++ [hexDigit (n % 10)]

def natToDec (n : Nat) : String := String.mk (natDecAux (n + 1) n)

def joinComma : List String → String
  | [] => ""
  | [x] => x
  | x :: xs => x ++ "," ++ joinComma xs

def encodeChunkInfo (c : ChunkInfo) : String :=
  "\x7b\"hash\":" ++ encodeJsonStr c.hash ++ ",\"size\":" ++ natToDec c.size ++ "\x7d"

/-- `json.Marshal` of a `Manifest` (nil chunk slice ↦ `null`). -/
def encodeManifest (m : Manifest) : String :=
  let inner := match m.chunks with
    | [] => "null"
    | cs => "[" ++ joinComma (cs.map encodeChunkInfo) ++ "]"
  "\x7b\"chunks\":" ++ inner ++ "\x7d"

/-- `json.Marshal` of a `[]string` (nil ↦ `null`), as produced for the
missing-chunk list. -/
def encodeGoStringList (l : List String) : String :=
  match l with
  | [] => "null"
  | xs => "[" ++ joinComma (xs.map encodeJsonStr) ++ "]"

/-! ### Go `encoding/json` decoder, restricted to the manifest schema

Model of `json.NewDecoder(r).Decode(&m)` on the canonical compact image
(no interior whitespace, no escape sequences — chunk hashes are hex).
Decoding `null` for the chunk slice yields the nil slice, as in Go. -/

def isDigitChar (c : Char) : Bool := 48 ≤ c.toNat && c.toNat ≤ 57

def digitsToNat (ds : List Char) : Nat :=
  ds.foldl (fun acc c => acc * 10 + (c.toNat - 48)) 0

/-- Consume a literal prefix of the input, or fail. -/
def dropLitChars : List Char → List Char → Option (List Char)
  | [], s => some s
  | _ :: _, [] => none
  | c :: cs, d :: ds => if c = d then dropLitChars cs ds else none

def parseJsonStrChars : List Char → Option (String × List Char)
  | '"' :: rest =>
    let content := rest.takeWhile (fun c => c ≠ '"')
    let rem := rest.dropWhile (fun c => c ≠ '"')
    match rem with
    | '"' :: rem2 => some (String.mk content, rem2)
    | _ => none
  | _ => none

def parseNatChars (s : List Char) : Option (Nat × List Char) :=
  let ds := s.takeWhile isDigitChar
  if ds = [] then none else some (digitsToNat ds, s.dropWhile isDigitChar)

def parseChunkInfoChars (s : List Char) : Option (ChunkInfo × List Char) := do
  let s ← dropLitChars ("\x7b\"hash\":".data) s
  let (h, s) ← parseJsonStrChars s
  let s ← dropLitChars (",\"size\":".data) s
  let (n, s) ← parseNatChars s
  let s ← dropLitChars ("\x7d".data) s
  pure (⟨h, n⟩, s)

def parseChunkListAux : Nat → List Char → Option (List ChunkInfo × List Char)
  | 0, _ => none
  | fuel + 1, s => do
    let (c, s) ← parseChunkInfoChars s
    match s with
    | ',' :: s2 => do
      let (cs, s3) ← parseChunkListAux fuel s2
      pure (c :: cs, s3)
    | _ => pure ([c], s)

def parseChunksValue (s : List Char) : Option (List ChunkInfo × List Char) :=
  match dropLitChars ("null".data) s with
  | some rest => some ([], rest)
  | none =>
    match s with
    | '[' :: ']' :: rest => some ([], rest)
    | '[' :: s2 => do
      let (cs, s3) ← parseChunkListAux (s2.length + 1) s2
      match s3 with
      | ']' :: s4 => pure (cs, s4)
      | _ => none
    | _ => none

def isWsChar (c : Char) : Bool := c = ' ' || c = '\n' || c = '\t' || c = '\r'

/-- Decode a `Manifest` from a string; trailing whitespace is tolerated
(the encoder side may append a newline). -/
def parseManifest (s : String) : Option Manifest := do
  let s ← dropLitChars ("\x7b\"chunks\":".data) s.data
  let (cs, s) ← parseChunksValue s
  let s ← dropLitChars ("\x7d".data) s
  if s.all isWsChar then pure ⟨cs⟩ else none

/-! ## Agent mode `check` (`runCheck`, `agent/fsync/main.go`)

Decodes a manifest from stdin, collects the hashes whose chunk file is
absent from the chunks directory (in manifest order), and writes them with
`json.NewEncoder(w).Encode` (which appends a newline).  The chunks
directory is modelled by the list of file names it contains; `os.Stat` of
`<chunks>/<hash>` succeeds iff the name is present. -/

def missingHashes (m : Manifest) (chunkNames : List String) : List String :=
  (m.chunks.filter (fun c => ¬ chunkNames.contains c.hash)).map (fun c => c.hash)

/-- `runCheck`: `none` models the decode-error exit; otherwise the bytes
written to stdout. -/
def runCheck (input : String) (chunkNames : List String) : Option String :=
  match parseManifest input with
  | none => none
  | some m => some (encodeGoStringList (missingHashes m chunkNames) ++ "\n")

/-! ## Flat chunk-directory state and file-operation traces

The chunks directory is a flat directory; we model it as an association
list from file name to contents.  Individual writers are modelled by the
sequence of file operations they issue, so that the write-to-temp-then-
rename discipline (or its absence) is visible. -/

abbrev ChunkDir := List (String × List Nat)

def lookupFile (st : ChunkDir) (n : String) : Option (List Nat) :=
  match st with
  | [] => none
  | (k, v) :: rest => if k = n then some v else lookupFile rest n

def removeFile (st : ChunkDir) (n : String) : ChunkDir :=
  match st with
  | [] => []
  | (k, v) :: rest => if k = n then removeFile rest n else (k, v) :: removeFile rest n

def setFile (st : ChunkDir) (n : String) (d : List Nat) : ChunkDir :=
  (n, d) :: removeFile st n

inductive FsOp where
  | create (name : String)
  | write (name : String) (data : List Nat)
  | rename (src dst : String)
  | remove (name : String)
deriving Repr, DecidableEq

def applyFsOp (st : ChunkDir) : FsOp → ChunkDir
  | .create n => setFile st n []
  | .write n d =>
      match lookupFile st n with
      | some old => setFile st n (old ++ d)
      | none => setFile st n d
  | .rename s d =>
      match lookupFile st s with
      | some v => setFile (removeFile st s) d v
      | none => st
  | .remove n => removeFile st n

def applyFsOps (st : ChunkDir) (ops : List FsOp) : ChunkDir :=
  ops.foldl applyFsOp st

/-- A write of a chunk blob is temp-then-rename for `final` when no create
or write touches `final` directly and the blob arrives by a rename from a
different name. -/
def tempThenRename (final : String) (ops : List FsOp) : Bool :=
  (ops.all fun op => match op with
    | .create n => n ≠ final
    | .write n _ => n ≠ final
    | _ => true) &&
  (ops.any fun op => match op with
    | .rename s d => d = final && s ≠ final
    | _ => false)

/-! ## Peer chunk download (`downloadChunk`, `agent/fsync/main.go`)

The hub is a function from hash to HTTP response `(status, body)`
(`none` models a transport error).  `downloadChunk` creates `<hash>.tmp`,
copies the body through a SHA-256 tee, and either renames to `<hash>`
(hash matches) or removes the temp file (mismatch). -/

inductive DlResult where
  | ok
  | httpErr (status : Nat)
  | integrityErr (expected got : String)
deriving Repr, DecidableEq

/-- The file operations `downloadChunk` performs, with its result. -/
def downloadChunkOps (server : String → Option (Nat × List Nat)) (hash : String) :
    List FsOp × DlResult :=
  match server hash with
  | none => ([], .httpErr 0)
  | some (status, body) =>
    if status ≠ 200 then ([], .httpErr status)
    else
      let tmp := hash ++ ".tmp"
      let calcHash := sha256Hex body
      if calcHash = hash then ([.create tmp, .write tmp body, .rename tmp hash], .ok)
      else ([.create tmp, .write tmp body, .remove tmp], .integrityErr hash calcHash)

def downloadChunk (server : String → Option (Nat × List Nat)) (hash : String)
    (st : ChunkDir) : ChunkDir × DlResult :=
  (applyFsOps st (downloadChunkOps server hash).1, (downloadChunkOps server hash).2)

/-- The download phase of `runPeer`: for each manifest chunk absent from
the chunks directory, download it; the first error (bounded error channel
of capacity one) is reported after all downloads complete.  The bounded
five-worker pool is linearized to a sequential loop. -/
def peerDownloadStep (server : String → Option (Nat × List Nat))
    (acc : ChunkDir × Option DlResult) (c : ChunkInfo) : ChunkDir × Option DlResult :=
  if (lookupFile acc.1 c.hash).isSome then acc
  else
    let (st2, r) := downloadChunk server c.hash acc.1
    (st2, acc.2 <|> (if r = .ok then none else some r))

def peerDownloadAll (server : String → Option (Nat × List Nat)) (m : Manifest)
    (st : ChunkDir) : ChunkDir × Option DlResult :=
  m.chunks.foldl (peerDownloadStep server) (st, none)

/-! ## The agent working set and tar ingest (`runIngest`, `runPeer`)

`AgentDir` models the working-set root `<dir>`: the flat chunks directory
`<dir>/krun-chunks`, the file `<dir>/manifest.json`, and the payload
entries of `<dir>` as a file tree.  Tar streams are modelled by their
entry lists (`archive/tar` writer and reader are mutually inverse); the
reconstituted payload stream is raw bytes, decoded by the `untar`
parameter, which stands for `tar.NewReader` on the concatenation. -/

structure TarEntry where
  name : String
  isDir : Bool
  data : List Nat
deriving Repr, DecidableEq

inductive FsNode where
  | file (data : List Nat)
  | dir (children : List (String × FsNode))
deriving Repr

def bytesToStr (bs : List Nat) : String := String.mk (bs.map Char.ofNat)

structure AgentDir where
  chunks : ChunkDir
  manifestFile : Option (List Nat)
  payload : List (String × FsNode)

def ManifestFileName : String := "manifest.json"
def ChunksDirName : String := "krun-chunks"

def lookupChild (ns : List (String × FsNode)) (n : String) : Option FsNode :=
  match ns with
  | [] => none
  | (k, v) :: rest => if k = n then some v else lookupChild rest n

def removeChild (ns : List (String × FsNode)) (n : String) : List (String × FsNode) :=
  match ns with
  | [] => []
  | (k, v) :: rest => if k = n then removeChild rest n else (k, v) :: removeChild rest n

def setChild (ns : List (String × FsNode)) (n : String) (node : FsNode) :
    List (String × FsNode) := (n, node) :: removeChild ns n

/-- Relative path components of a tar entry name under the destination,
as produced by `filepath.Join(dir, name)` (lexical cleaning). -/
def relComponents (name : String) : List String :=
  cleanCompsAux false [] ((splitSlash name).filter (fun c => c ≠ "" && c ≠ "."))

/-- Go short-circuit test from `runIngest`:
`filepath.Clean(h.Name) != h.Name || h.Name == ".." || h.Name[0] == '/'`. -/
def suspiciousName (name : String) : Bool :=
  goClean name ≠ name || name = ".." || startsWithSlash name

/-- Operations the ingest store loop issues for a chunk entry:
`os.Create(target)` followed by `io.Copy` — a direct write, no temp file. -/
def ingestChunkOps (name : String) (data : List Nat) : List FsOp :=
  [.create name, .write name data]

/-- Operations `GenerateManifest` issues to persist a chunk:
`os.WriteFile(chunkPath, data, 0644)` — a direct write, no temp file. -/
def generateChunkOps (hash : String) (data : List Nat) : List FsOp :=
  [.create hash, .write hash data]

/-- One iteration of the ingest store loop: route the entry to
`<dir>/manifest.json` or `<chunks>/<base name>`. -/
def ingestStoreEntry (st : AgentDir) (e : TarEntry) : AgentDir :=
  if suspiciousName e.name then st
  else if e.name = ManifestFileName then { st with manifestFile := some e.data }
  else { st with chunks := applyFsOps st.chunks (ingestChunkOps (goBase e.name) e.data) }

/-- `os.MkdirAll`: create missing directories along the path, keep an
existing directory's contents, fail if a regular file is in the way. -/
def mkdirAllNode (ns : List (String × FsNode)) : List String → Option (List (String × FsNode))
  | [] => some ns
  | d :: rest =>
      match lookupChild ns d with
      | some (FsNode.dir cs) => (mkdirAllNode cs rest).map (fun cs2 => setChild ns d (FsNode.dir cs2))
      | some (FsNode.file _) => none
      | none => (mkdirAllNode [] rest).map (fun cs2 => setChild ns d (FsNode.dir cs2))

/-- `os.OpenFile(target, O_CREATE|O_RDWR|O_TRUNC)` + copy: parent
directories must already exist; an existing directory at the target is an
error. -/
def insertFileNode (ns : List (String × FsNode)) : List String → List Nat →
    Option (List (String × FsNode))
  | [], _ => none
  | [leaf], d =>
      match lookupChild ns leaf with
      | some (FsNode.dir _) => none
      | _ => some (setChild ns leaf (FsNode.file d))
  | d :: rest, dat =>
      match lookupChild ns d with
      | some (FsNode.dir cs) => (insertFileNode cs rest dat).map (fun cs2 => setChild ns d (FsNode.dir cs2))
      | _ => none

/-- Extract the reconstituted payload entries into the destination tree,
collecting the created relative paths (`applyManifest`'s `created`). -/
def extractEntries (payload : List (String × FsNode)) (entries : List TarEntry) :
    Option (List (String × FsNode) × List (List String)) :=
  entries.foldlM
    (fun acc e => do
      let p := relComponents e.name
      let tree ← if e.isDir then mkdirAllNode acc.1 p else insertFileNode acc.1 p e.data
      pure (tree, acc.2 ++ [p]))
    (payload, [])

/-! ## Mirror reconciler (`cleanupExtraneousFiles`, `agent/fsync/main.go`)

Paths are component lists relative to the destination root.  The keep map
is the created set plus the internal paths plus every proper ancestor of a
created path (the `filepath.Dir` loop).  The walk mirrors `filepath.Walk`
over the destination tree: the root is skipped, a directory named
`krun-chunks` is skipped wholesale (`filepath.SkipDir`), kept entries are
retained (directories are descended into), an unkept directory is removed
wholesale (`os.RemoveAll`), an unkept file is removed (`os.Remove`).  A
failed removal (the `failRemove` oracle) aborts the walk with that error,
leaving every not-yet-visited entry in place.  Children lists are stored
in the lexical order `filepath.Walk` would produce. -/

def properAncestors (p : List String) : List (List String) :=
  ((List.range p.length).drop 1).map (fun k => p.take k)

def keepClosure (created : List (List String)) : List (List String) :=
  [[ChunksDirName], [ManifestFileName]] ++ created ++ created.flatMap properAncestors

def isDirNode : FsNode → Bool
  | .dir _ => true
  | .file _ => false

/-! The walk over one children list returns the surviving children and
the first removal error (`none` when every delete succeeded).
`cleanupWalkNode` is the walk applied to a kept entry: a file is left in
place, a directory is descended into. -/
mutual

def cleanupWalkNode (keep : List (List String)) (failRemove : List String → Bool)
    (p : List String) : FsNode → FsNode × Option (List String)
  | FsNode.file d => (FsNode.file d, none)
  | FsNode.dir cs =>
    let r := cleanupWalkList keep failRemove p cs
    (FsNode.dir r.1, r.2)

def cleanupWalkList (keep : List (List String)) (failRemove : List String → Bool) :
    List String → List (String × FsNode) → List (String × FsNode) × Option (List String)
  | _, [] => ([], none)
  | rel, (name, node) :: rest =>
    let p := rel ++ [name]
    if isDirNode node && name = ChunksDirName then
      let r := cleanupWalkList keep failRemove rel rest
      ((name, node) :: r.1, r.2)
    else if keep.contains p then
      let rn := cleanupWalkNode keep failRemove p node
      match rn.2 with
      | some err => ((name, rn.1) :: rest, some err)
      | none =>
        let r := cleanupWalkList keep failRemove rel rest
        ((name, rn.1) :: r.1, r.2)
    else if failRemove p then
      ((name, node) :: rest, some p)
    else
      cleanupWalkList keep failRemove rel rest

end

/-- `cleanupExtraneousFiles(targetDir, keep)` on the destination's
children. -/
def cleanupExtraneousFiles (created : List (List String)) (failRemove : List String → Bool)
    (children : List (String × FsNode)) : List (String × FsNode) × Option (List String) :=
  cleanupWalkList (keepClosure created) failRemove [] children

/-! ## Manifest apply and the ingest / peer tails

`applyManifest` concatenates the chunk blobs in manifest order (failing if
one is absent) and extracts the resulting tar stream; `untar` stands for
`tar.NewReader` on the reconstituted bytes. -/

def applyManifestModel (untar : List Nat → Option (List TarEntry)) (st : AgentDir)
    (m : Manifest) : Option (List (String × FsNode) × List (List String)) := do
  let blobs ← m.chunks.mapM (fun c => lookupFile st.chunks c.hash)
  let entries ← untar blobs.flatten
  extractEntries st.payload entries

/-- Shared tail of `runIngest` and `runPeer`: optional mirror pass (its
error is only logged), then optional cleanup of the working set. -/
def mirrorAndCleanup (mirror cleanup : Bool) (failRemove : List String → Bool)
    (created : List (List String)) (st : AgentDir) : AgentDir :=
  let st1 := if mirror then { st with payload := (cleanupExtraneousFiles created failRemove st.payload).1 } else st
  if cleanup then { st1 with chunks := [], manifestFile := none } else st1

/-- `runIngest`: drain the tar from stdin, load and apply the manifest,
mirror, cleanup; the `Bool` is `true` iff the mode exits without error. -/
def runIngest (untar : List Nat → Option (List TarEntry)) (tarIn : List TarEntry)
    (mirror cleanup : Bool) (failRemove : List String → Bool) (st : AgentDir) :
    AgentDir × Bool :=
  let st1 := tarIn.foldl ingestStoreEntry st
  match st1.manifestFile with
  | none => (st1, false)
  | some mb =>
    match parseManifest (bytesToStr mb) with
    | none => (st1, false)
    | some m =>
      match applyManifestModel untar st1 m with
      | none => (st1, false)
      | some (payload2, created) =>
        (mirrorAndCleanup mirror cleanup failRemove created { st1 with payload := payload2 }, true)

/-- `runPeer` after the manifest has been received from the tracker:
download missing chunks, then the same apply-mirror-cleanup tail as
ingest.  A download error fails the whole peer sync before apply. -/
def runPeer (server : String → Option (Nat × List Nat)) (m : Manifest)
    (untar : List Nat → Option (List TarEntry)) (mirror cleanup : Bool)
    (failRemove : List String → Bool) (st : AgentDir) : AgentDir × Bool :=
  let (chunks2, errOpt) := peerDownloadAll server m st.chunks
  let st1 := { st with chunks := chunks2 }
  match errOpt with
  | some _ => (st1, false)
  | none =>
    match applyManifestModel untar st1 m with
    | none => (st1, false)
    | some (payload2, created) =>
      (mirrorAndCleanup mirror cleanup failRemove created { st1 with payload := payload2 }, true)

/-! ## Tar packer (`MakeTar`, `pkg/files/tar.go`)

The source tree is an `FsNode`; children lists are stored in the lexical
order `filepath.Walk` produces.  The exclusion regex is abstracted to its
`MatchString` function (`none` = no `-exclude` given).  A match on a
directory prunes the subtree (`filepath.SkipDir`); on a file it skips the
file.  Entry names are the source-relative slash-joined paths; the root
(`.`) gets no entry; for a regular-file source the single entry carries
the base name. -/

def joinComps (comps : List String) : String := joinSlash comps

def exclMatch (matcher : Option (String → Bool)) (rel : String) : Bool :=
  match matcher with
  | none => false
  | some f => f rel

mutual

def tarWalkNode (matcher : Option (String → Bool)) (relC : List String) :
    FsNode → List TarEntry
  | FsNode.file d => [⟨joinComps relC, false, d⟩]
  | FsNode.dir cs => ⟨joinComps relC, true, []⟩ :: tarWalkList matcher relC cs

def tarWalkList (matcher : Option (String → Bool)) :
    List String → List (String × FsNode) → List TarEntry
  | _, [] => []
  | rel, (name, node) :: rest =>
    (if exclMatch matcher (joinComps (rel ++ [name])) then []
     else tarWalkNode matcher (rel ++ [name]) node)
    ++ tarWalkList matcher rel rest

end

def MakeTar (matcher : Option (String → Bool)) (srcBase : String) (root : FsNode) :
    List TarEntry :=
  match root with
  | FsNode.file d => [⟨srcBase, false, d⟩]
  | FsNode.dir cs => tarWalkList matcher [] cs

/-! Plain enumeration of the walk (no exclusion), keeping the component
path of every entry; used to state which entries the packer keeps. -/
mutual

def enumPathsNode (relC : List String) : FsNode → List (List String × TarEntry)
  | FsNode.file d => [(relC, ⟨joinComps relC, false, d⟩)]
  | FsNode.dir cs => (relC, ⟨joinComps relC, true, []⟩) :: enumPaths relC cs

def enumPaths : List String → List (String × FsNode) → List (List String × TarEntry)
  | _, [] => []
  | rel, (name, node) :: rest =>
    enumPathsNode (rel ++ [name]) node ++ enumPaths rel rest

end

/-- No prefix of `p` strictly below the base depth matches the exclusion:
the entry is neither excluded itself nor inside a pruned directory. -/
def keptFrom (matcher : Option (String → Bool)) (baseLen : Nat) (p : List String) : Bool :=
  (List.range (p.length - baseLen)).all
    (fun i => !exclMatch matcher (joinComps (p.take (baseLen + i + 1))))

/-! ## Fan-out orchestrator (`SyncPods`, `pkg/cdc/sync_pods.go`)

Modelled by the sequence of remote exec calls it issues on the happy path
(every exec succeeds and the hub prints its discovery line, yielding
`hubPort`).  `SyncLocalToLeader` always issues one `check` and one
`ingest` (the upload condition is `len(missing) > 0 || true`). -/

structure PodInfo where
  name : String
  ip : String
deriving Repr, DecidableEq

structure ExecCall where
  pod : String
  argv : List String
deriving Repr, DecidableEq

def AgentBinary : String := "/tmp/krun-agent"

def checkArgv (remoteDir : String) : List String :=
  [AgentBinary, "-mode", "check", "-dir", remoteDir]

def ingestArgv (remoteDir : String) (cleanup : Bool) : List String :=
  [AgentBinary, "-mode", "ingest", "-dir", remoteDir] ++ (if cleanup then ["-cleanup"] else [])

def hubArgv (remoteDir : String) : List String :=
  [AgentBinary, "-mode", "hub", "-dir", remoteDir, "-tracker-port", "0"]

/-- `net.JoinHostPort`. -/
def joinHostPort (host port : String) : String :=
  if host.data.contains ':' then "[" ++ host ++ "]:" ++ port else host ++ ":" ++ port

def peerArgv (remoteDir hubURL : String) : List String :=
  [AgentBinary, "-mode", "peer", "-dir", remoteDir, "-tracker", hubURL, "-cleanup"]

def syncLocalToLeaderCalls (leader : PodInfo) (remoteDir : String) (cleanup : Bool) :
    List ExecCall :=
  [⟨leader.name, checkArgv remoteDir⟩, ⟨leader.name, ingestArgv remoteDir cleanup⟩]

/-- The exec calls `SyncPods` issues; `none` models the `no pods to sync`
error. -/
def syncPodsCalls (pods : List PodInfo) (remoteDir hubPort : String) :
    Option (List ExecCall) :=
  match pods with
  | [] => none
  | leader :: followers =>
    let lead := syncLocalToLeaderCalls leader remoteDir (followers = [])
    if followers = [] then some lead
    else some (lead ++ [⟨leader.name, hubArgv remoteDir⟩] ++
      followers.map (fun p =>
        ⟨p.name, peerArgv remoteDir ("http://" ++ joinHostPort leader.ip hubPort)⟩))

def callMode (c : ExecCall) : Option String :=
  match c.argv with
  | _ :: "-mode" :: m :: _ => some m
  | _ => none

/-! ## Agent flag parsing (`main`, `agent/fsync/main.go`)

Model of `flag.Bool` resolution for one named boolean flag: the declared
default, overridden by an explicit `-name`, `-name=true` or `-name=false`
argument (last occurrence wins). -/

def parseBoolFlag (args : List String) (name : String) (dflt : Bool) : Bool :=
  args.foldl
    (fun acc a =>
      if a = "-" ++ name || a = "-" ++ name ++ "=true" then true
      else if a = "-" ++ name ++ "=false" then false
      else acc)
    dflt

/-- The `-mirror` flag: `flag.Bool("mirror", true, ...)`. -/
def mirrorFlagValue (args : List String) : Bool := parseBoolFlag args "mirror" true

/-- The `-cleanup` flag: `flag.Bool("cleanup", false, ...)`. -/
def cleanupFlagValue (args : List String) : Bool := parseBoolFlag args "cleanup" false

/-! ## Call-classification helpers for the fan-out trace -/

def isModeCall (mode : String) (c : ExecCall) : Bool := callMode c == some mode

def isModeCallOn (mode podName : String) (c : ExecCall) : Bool :=
  (callMode c == some mode) && (c.pod == podName)

/-! ## All paths of a destination tree (relative component paths) -/

mutual

def treePathsNode (relC : List String) : FsNode → List (List String)
  | FsNode.file _ => [relC]
  | FsNode.dir cs => relC :: treePaths relC cs

def treePaths : List String → List (String × FsNode) → List (List String)
  | _, [] => []
  | rel, (name, node) :: rest =>
    treePathsNode (rel ++ [name]) node ++ treePaths rel rest

end

/-! # Helper lemmas -/

theorem lookupFile_removeFile (st : ChunkDir) (n k : String) :
    lookupFile (removeFile st n) k = if k = n then none else lookupFile st k := by
  induction st with
  | nil => simp [removeFile, lookupFile]
  | cons hd tl ih =>
    obtain ⟨a, b⟩ := hd
    by_cases hA : a = n
    · subst hA
      by_cases hK : k = a
      · subst hK
        simp [removeFile, lookupFile, ih]
      · have hak : a ≠ k := fun h => hK h.symm
        simp [removeFile, lookupFile, hK, hak, ih]
    · by_cases hK : a = k
      · subst hK
        have hkn : ¬ (a = n) := hA
        simp [removeFile, lookupFile, hA, hkn, ih]
      · simp [removeFile, lookupFile, hA, hK, ih]

theorem lookupFile_setFile (st : ChunkDir) (n : String) (d : List Nat) (k : String) :
    lookupFile (setFile st n d) k = if k = n then some d else lookupFile st k := by
  by_cases h : k = n
  · subst h
    simp [setFile, lookupFile]
  · have hnk : n ≠ k := fun hh => h hh.symm
    simp [setFile, lookupFile, hnk, lookupFile_removeFile, h]

theorem string_ne_append_tmp (s : String) : s ≠ s ++ ".tmp" := by
  intro h
  have h1 : s.length = s.length + ".tmp".length := by
    conv_lhs => rw [h]
    exact String.length_append s ".tmp"
  have h2 : ".tmp".length = 4 := rfl
  omega

theorem countP_followers_name (followers : List PodInfo) (nm : String)
    (hnd : (followers.map PodInfo.name).Nodup) (hmem : nm ∈ followers.map PodInfo.name) :
    followers.countP (fun pod => pod.name == nm) = 1 := by
  have h1 : followers.countP (fun pod => pod.name == nm)
      = (followers.map PodInfo.name).countP (fun s => s == nm) := by
    rw [List.countP_map]
    rfl
  rw [h1]
  have h2 : (followers.map PodInfo.name).countP (fun s => s == nm)
      = (followers.map PodInfo.name).count nm := rfl
  rw [h2]
  exact List.count_eq_one_of_mem hnd hmem

/-! # Claim C7 — fan-out exec calls -/

/-- C7: for every non-empty endpoint list the orchestrator issues exactly
one `check` and one `ingest` exec on the leader (the first endpoint); with
a single endpoint the ingest carries `-cleanup` and no hub or peer exec is
issued; with more than one, ingest omits `-cleanup`, exactly one hub exec
runs on the leader, and exactly one `peer` exec carrying `-cleanup` runs
on each follower. -/
theorem c7_fanout_exec_calls (pods : List PodInfo) (remoteDir hubPort : String)
    (hne : pods ≠ []) (hnd : (pods.map PodInfo.name).Nodup)
    (hrd : remoteDir ≠ "-cleanup") :
    ∃ calls, syncPodsCalls pods remoteDir hubPort = some calls ∧
      calls.countP (isModeCallOn "check" (pods.head hne).name) = 1 ∧
      calls.countP (isModeCall "check") = 1 ∧
      calls.countP (isModeCallOn "ingest" (pods.head hne).name) = 1 ∧
      calls.countP (isModeCall "ingest") = 1 ∧
      (pods.length = 1 →
        (∀ c ∈ calls, isModeCall "ingest" c → "-cleanup" ∈ c.argv) ∧
        calls.countP (isModeCall "hub") = 0 ∧
        calls.countP (isModeCall "peer") = 0) ∧
      (1 < pods.length →
        (∀ c ∈ calls, isModeCall "ingest" c → "-cleanup" ∉ c.argv) ∧
        calls.countP (isModeCallOn "hub" (pods.head hne).name) = 1 ∧
        calls.countP (isModeCall "hub") = 1 ∧
        (∀ c ∈ calls, isModeCall "peer" c → "-cleanup" ∈ c.argv) ∧
        calls.countP (isModeCall "peer") = pods.tail.length ∧
        (∀ p ∈ pods.tail, calls.countP (isModeCallOn "peer" p.name) = 1)) := by
  match pods with
  | leader :: followers =>
    by_cases hf : followers = []
    · subst hf
      refine ⟨_, rfl, ?_⟩
      simp [syncPodsCalls, syncLocalToLeaderCalls, checkArgv, ingestArgv, hubArgv, peerArgv,
        isModeCall, isModeCallOn, callMode, List.countP_cons, List.countP_nil]
    · refine ⟨syncLocalToLeaderCalls leader remoteDir false ++ [⟨leader.name, hubArgv remoteDir⟩] ++
        followers.map (fun p =>
          ⟨p.name, peerArgv remoteDir ("http://" ++ joinHostPort leader.ip hubPort)⟩), ?_, ?_⟩
      · simp only [syncPodsCalls, if_neg hf]
        congr 2
        simp [hf]
      · simp only [List.countP_append, List.countP_map]
        simp only [syncLocalToLeaderCalls, checkArgv, ingestArgv, hubArgv, peerArgv,
          isModeCall, isModeCallOn, callMode, List.countP_cons, List.countP_nil,
          Function.comp]
        simp [hf, isModeCall, isModeCallOn, callMode]
        intro _
        refine ⟨⟨by decide, fun h => hrd h.symm⟩, ?_⟩
        intro p hp
        have hndf : (followers.map PodInfo.name).Nodup := by
          simpa [List.nodup_cons] using hnd.of_cons
        have hmem : p.name ∈ followers.map PodInfo.name := List.mem_map_of_mem _ hp
        have hcnt := countP_followers_name followers p.name hndf hmem
        rw [← hcnt]
        apply List.countP_congr
        intro pod hpod
        simp [isModeCallOn, callMode, Function.comp]

/-- Witness for C7 at the three-pod fleet of the repository's own
`TestSyncPods`. -/
theorem c7_fanout_exec_calls_witness :
    (([⟨"pod-0", "10.0.0.1"⟩, ⟨"pod-1", "10.0.0.2"⟩, ⟨"pod-2", "10.0.0.3"⟩] : List PodInfo) ≠ []
      ∧ (([⟨"pod-0", "10.0.0.1"⟩, ⟨"pod-1", "10.0.0.2"⟩, ⟨"pod-2", "10.0.0.3"⟩] : List PodInfo).map
          PodInfo.name).Nodup
      ∧ "/remote/path" ≠ "-cleanup")
    ∧ ∃ calls,
        syncPodsCalls [⟨"pod-0", "10.0.0.1"⟩, ⟨"pod-1", "10.0.0.2"⟩, ⟨"pod-2", "10.0.0.3"⟩]
          "/remote/path" "12345" = some calls ∧
        calls.countP (isModeCallOn "check" "pod-0") = 1 ∧
        calls.countP (isModeCall "check") = 1 ∧
        calls.countP (isModeCallOn "ingest" "pod-0") = 1 ∧
        calls.countP (isModeCall "ingest") = 1 ∧
        (([⟨"pod-0", "10.0.0.1"⟩, ⟨"pod-1", "10.0.0.2"⟩, ⟨"pod-2", "10.0.0.3"⟩] : List PodInfo).length = 1 →
          (∀ c ∈ calls, isModeCall "ingest" c → "-cleanup" ∈ c.argv) ∧
          calls.countP (isModeCall "hub") = 0 ∧
          calls.countP (isModeCall "peer") = 0) ∧
        (1 < ([⟨"pod-0", "10.0.0.1"⟩, ⟨"pod-1", "10.0.0.2"⟩, ⟨"pod-2", "10.0.0.3"⟩] : List PodInfo).length →
          (∀ c ∈ calls, isModeCall "ingest" c → "-cleanup" ∉ c.argv) ∧
          calls.countP (isModeCallOn "hub" "pod-0") = 1 ∧
          calls.countP (isModeCall "hub") = 1 ∧
          (∀ c ∈ calls, isModeCall "peer" c → "-cleanup" ∈ c.argv) ∧
          calls.countP (isModeCall "peer") =
            ([⟨"pod-0", "10.0.0.1"⟩, ⟨"pod-1", "10.0.0.2"⟩, ⟨"pod-2", "10.0.0.3"⟩] : List PodInfo).tail.length ∧
          (∀ p ∈ ([⟨"pod-0", "10.0.0.1"⟩, ⟨"pod-1", "10.0.0.2"⟩, ⟨"pod-2", "10.0.0.3"⟩] : List PodInfo).tail,
            calls.countP (isModeCallOn "peer" p.name) = 1)) :=
  ⟨⟨by decide, by decide, by decide⟩,
    c7_fanout_exec_calls
      [⟨"pod-0", "10.0.0.1"⟩, ⟨"pod-1", "10.0.0.2"⟩, ⟨"pod-2", "10.0.0.3"⟩]
      "/remote/path" "12345" (by decide) (by decide) (by decide)⟩

/-! # Claim C10 — mirror-by-default -/

/-- `tar.NewReader` on the empty reconstituted stream: no entries.  Used
to instantiate the `untar` parameter at concrete inputs whose manifests
are empty. -/
def untarEmptyOnly : List Nat → Option (List TarEntry) :=
  fun bs => if bs = [] then some [] else none

/-- C10: the `-mirror` flag defaults to `true` (so the reconciler runs
and deletes extraneous destination files) and is disabled only by an
explicit `-mirror=false`; with the flag true `runIngest` replaces the
payload by the reconciled payload, with it false the applied payload is
left as is. -/
theorem c10_mirror_default :
    (∀ args : List String,
      (∀ a ∈ args, a ≠ "-mirror" ∧ a ≠ "-mirror=true" ∧ a ≠ "-mirror=false") →
      mirrorFlagValue args = true)
    ∧ mirrorFlagValue ["-mirror=false"] = false
    ∧ (∀ (untar : List Nat → Option (List TarEntry)) (tarIn : List TarEntry)
        (cleanup : Bool) (failRemove : List String → Bool) (st : AgentDir)
        (mb : List Nat) (m : Manifest) (payload2 : List (String × FsNode))
        (created : List (List String)),
        (tarIn.foldl ingestStoreEntry st).manifestFile = some mb →
        parseManifest (bytesToStr mb) = some m →
        applyManifestModel untar (tarIn.foldl ingestStoreEntry st) m = some (payload2, created) →
        (runIngest untar tarIn true cleanup failRemove st).1.payload
            = (cleanupExtraneousFiles created failRemove payload2).1
          ∧ (runIngest untar tarIn false cleanup failRemove st).1.payload = payload2) := by
  refine ⟨?_, by decide, ?_⟩
  · intro args hargs
    have gen : ∀ (l : List String) (acc : Bool),
        (∀ a ∈ l, a ≠ "-mirror" ∧ a ≠ "-mirror=true" ∧ a ≠ "-mirror=false") →
        l.foldl (fun acc2 a =>
          if a = "-" ++ "mirror" || a = "-" ++ "mirror" ++ "=true" then true
          else if a = "-" ++ "mirror" ++ "=false" then false
          else acc2) acc = acc := by
      intro l
      induction l with
      | nil => intro acc _; rfl
      | cons a t ih =>
        intro acc hall
        have ha := hall a (List.mem_cons_self a t)
        simp only [List.foldl_cons, show "-" ++ "mirror" = "-mirror" from rfl,
          show "-mirror" ++ "=true" = "-mirror=true" from rfl,
          show "-mirror" ++ "=false" = "-mirror=false" from rfl]
        rw [if_neg (by simp [ha.1, ha.2.1]), if_neg (by simp [ha.2.2])]
        exact ih acc (fun x hx => hall x (List.mem_cons_of_mem a hx))
    exact gen args true hargs
  · intro untar tarIn cleanup failRemove st mb m payload2 created h1 h2 h3
    constructor
    · simp only [runIngest, h1, h2, h3, mirrorAndCleanup]
      cases cleanup <;> simp
    · simp only [runIngest, h1, h2, h3, mirrorAndCleanup]
      cases cleanup <;> simp

/-- Witness for C10: an empty-manifest ingest over a destination holding
an extraneous `old.txt`; with the default mirror the file is reconciled
away, with `-mirror=false` it stays. -/
theorem c10_mirror_default_witness :
    ((([⟨"manifest.json", false, strBytes "\x7b\"chunks\":null\x7d"⟩] : List TarEntry).foldl
        ingestStoreEntry ⟨[], none, [("old.txt", FsNode.file [1])]⟩).manifestFile
        = some (strBytes "\x7b\"chunks\":null\x7d")
      ∧ parseManifest (bytesToStr (strBytes "\x7b\"chunks\":null\x7d")) = some ⟨[]⟩
      ∧ applyManifestModel untarEmptyOnly
          (([⟨"manifest.json", false, strBytes "\x7b\"chunks\":null\x7d"⟩] : List TarEntry).foldl
            ingestStoreEntry ⟨[], none, [("old.txt", FsNode.file [1])]⟩) ⟨[]⟩
          = some ([("old.txt", FsNode.file [1])], []))
    ∧ (runIngest untarEmptyOnly [⟨"manifest.json", false, strBytes "\x7b\"chunks\":null\x7d"⟩]
          true false (fun _ => false) ⟨[], none, [("old.txt", FsNode.file [1])]⟩).1.payload
        = (cleanupExtraneousFiles [] (fun _ => false) [("old.txt", FsNode.file [1])]).1
    ∧ (runIngest untarEmptyOnly [⟨"manifest.json", false, strBytes "\x7b\"chunks\":null\x7d"⟩]
          false false (fun _ => false) ⟨[], none, [("old.txt", FsNode.file [1])]⟩).1.payload
        = [("old.txt", FsNode.file [1])] :=
  ⟨⟨by rfl, by rfl, by rfl⟩,
    (c10_mirror_default.2.2 untarEmptyOnly _ false (fun _ => false)
      ⟨[], none, [("old.txt", FsNode.file [1])]⟩ _ ⟨[]⟩ _ [] (by rfl) (by rfl) (by rfl)).1,
    (c10_mirror_default.2.2 untarEmptyOnly _ false (fun _ => false)
      ⟨[], none, [("old.txt", FsNode.file [1])]⟩ _ ⟨[]⟩ _ [] (by rfl) (by rfl) (by rfl)).2⟩

/-! # Claim C4 — check mode output -/

/-- C4 counterexample: on a manifest with no absent chunks, `runCheck`
writes `null` (Go encoding of the nil slice), which is not the JSON
array of the absent-hash list (`[]`). -/
theorem c4_check_null_counterexample :
    runCheck "\x7b\"chunks\":null\x7d" [] = some "null\n"
    ∧ "null\n" ≠ "[" ++ joinComma (([] : List String).map encodeJsonStr) ++ "]" ++ "\n" := by
  constructor
  · rfl
  · decide

/-- C4 (amended): `runCheck` decodes the manifest from stdin and writes
the Go JSON encoding of exactly the manifest hashes whose chunk file is
absent, in manifest order, with a trailing newline; the encoding is a
JSON array whenever at least one hash is absent and `null` when none are.
It performs no writes to the working set (it is a pure function of the
manifest and the chunk-directory listing). -/
theorem c4_check_output (input : String) (chunkNames : List String) (m : Manifest)
    (h : parseManifest input = some m) :
    runCheck input chunkNames = some (encodeGoStringList (missingHashes m chunkNames) ++ "\n")
    ∧ missingHashes m chunkNames
        = (m.chunks.map ChunkInfo.hash).filter (fun h2 => !chunkNames.contains h2)
    ∧ (missingHashes m chunkNames ≠ [] →
        encodeGoStringList (missingHashes m chunkNames)
          = "[" ++ joinComma ((missingHashes m chunkNames).map encodeJsonStr) ++ "]") := by
  refine ⟨?_, ?_, ?_⟩
  · simp [runCheck, h]
  · unfold missingHashes
    induction m.chunks with
    | nil => rfl
    | cons c t ih =>
      by_cases hc : c.hash ∈ chunkNames
      · simpa [List.filter_cons, hc] using ih
      · simpa [List.filter_cons, hc] using ih
  · intro hne
    unfold encodeGoStringList
    match hmm : missingHashes m chunkNames with
    | [] => exact absurd hmm hne
    | x :: xs => rfl

/-- Witness for C4 at a one-chunk manifest whose chunk is absent. -/
theorem c4_check_output_witness :
    parseManifest "\x7b\"chunks\":[\x7b\"hash\":\"aa\",\"size\":1\x7d]\x7d"
        = some ⟨[⟨"aa", 1⟩]⟩
    ∧ (runCheck "\x7b\"chunks\":[\x7b\"hash\":\"aa\",\"size\":1\x7d]\x7d" []
        = some (encodeGoStringList (missingHashes ⟨[⟨"aa", 1⟩]⟩ []) ++ "\n")
      ∧ missingHashes ⟨[⟨"aa", 1⟩]⟩ []
          = ((Manifest.mk [⟨"aa", 1⟩]).chunks.map ChunkInfo.hash).filter
              (fun h2 => !([] : List String).contains h2)
      ∧ (missingHashes ⟨[⟨"aa", 1⟩]⟩ [] ≠ [] →
          encodeGoStringList (missingHashes ⟨[⟨"aa", 1⟩]⟩ [])
            = "[" ++ joinComma ((missingHashes ⟨[⟨"aa", 1⟩]⟩ []).map encodeJsonStr)
              ++ "]")) :=
  ⟨by rfl, c4_check_output _ [] ⟨[⟨"aa", 1⟩]⟩ (by rfl)⟩

/-! # Claim C3 — chunk write disciplines -/

/-- Concrete hash/server fixtures mirroring `integrity_test.go`:
`helloHash = sha256("hello")`; the well-behaved hub serves `"hello"`, the
corrupt hub serves `"EVIL DATA"` under that hash. -/
def helloHash : String := "2cf24dba5fb0a30e26e83b2ac5b9e29e1b161e5c1fa7425e73043362938b9824"

def helloServer : String → Option (Nat × List Nat) :=
  fun h2 => if h2 = helloHash then some (200, strBytes "hello") else none

def evilServer : String → Option (Nat × List Nat) :=
  fun h2 => if h2 = helloHash then some (200, strBytes "EVIL DATA") else none

/-- C3 counterexample: the chunk writes of `runIngest` (`os.Create` +
copy) and of `GenerateManifest` (`os.WriteFile`) create the file directly
under the hash name — they are not write-to-temp-then-rename; only the
peer download is. -/
theorem c3_direct_write_counterexample :
    tempThenRename "2cf24dba5fb0a30e26e83b2ac5b9e29e1b161e5c1fa7425e73043362938b9824"
      (ingestChunkOps "2cf24dba5fb0a30e26e83b2ac5b9e29e1b161e5c1fa7425e73043362938b9824" [1, 2]) = false
    ∧ tempThenRename "2cf24dba5fb0a30e26e83b2ac5b9e29e1b161e5c1fa7425e73043362938b9824"
      (generateChunkOps "2cf24dba5fb0a30e26e83b2ac5b9e29e1b161e5c1fa7425e73043362938b9824" [1, 2]) = false := by
  constructor <;> rfl

/-- C3 (amended): only the peer chunk download writes via a temporary
file followed by a rename (and the renamed file carries the full body);
`runIngest` and `GenerateManifest` write chunk blobs directly to the
final hash-shaped name. -/
theorem c3_write_disciplines :
    (∀ (server : String → Option (Nat × List Nat)) (hash : String) (status : Nat) (body : List Nat),
      server hash = some (status, body) → status = 200 → sha256Hex body = hash →
        tempThenRename hash (downloadChunkOps server hash).1 = true
        ∧ ∀ st : ChunkDir, lookupFile (applyFsOps st (downloadChunkOps server hash).1) hash = some body)
    ∧ (∀ (name : String) (data : List Nat),
        tempThenRename name (ingestChunkOps name data) = false
        ∧ tempThenRename name (generateChunkOps name data) = false) := by
  constructor
  · intro server hash status body hs h200 hsha
    subst h200
    have hops : (downloadChunkOps server hash).1
        = [.create (hash ++ ".tmp"), .write (hash ++ ".tmp") body, .rename (hash ++ ".tmp") hash] := by
      simp [downloadChunkOps, hs, hsha]
    constructor
    · rw [hops]
      have hne : hash ++ ".tmp" ≠ hash := fun h => string_ne_append_tmp hash h.symm
      simp [tempThenRename, hne]
    · intro st
      rw [hops]
      simp [applyFsOps, applyFsOp, lookupFile_setFile, lookupFile_removeFile]
  · intro name data
    constructor <;> simp [tempThenRename, ingestChunkOps, generateChunkOps]

/-- Witness for C3: the peer download of `sha256("hello")` from the
well-behaved hub goes through `<hash>.tmp` and a rename. -/
theorem c3_write_disciplines_witness :
    (helloServer helloHash = some (200, strBytes "hello")
      ∧ (200 : Nat) = 200
      ∧ sha256Hex (strBytes "hello") = helloHash)
    ∧ tempThenRename helloHash (downloadChunkOps helloServer helloHash).1 = true
    ∧ lookupFile (applyFsOps [] (downloadChunkOps helloServer helloHash).1) helloHash
        = some (strBytes "hello")
    ∧ tempThenRename "name" (ingestChunkOps "name" [3]) = false :=
  have hsha : sha256Hex (strBytes "hello") = helloHash := by decide
  ⟨⟨by rfl, rfl, hsha⟩,
    (c3_write_disciplines.1 helloServer helloHash 200 (strBytes "hello") (by rfl) rfl hsha).1,
    (c3_write_disciplines.1 helloServer helloHash 200 (strBytes "hello") (by rfl) rfl hsha).2 [],
    (c3_write_disciplines.2 "name" [3]).1⟩

/-! # Claim C1 — peer download integrity -/

theorem removeFile_removeFile (st : ChunkDir) (n : String) :
    removeFile (removeFile st n) n = removeFile st n := by
  induction st with
  | nil => rfl
  | cons hd tl ih =>
    obtain ⟨a, b⟩ := hd
    by_cases hA : a = n
    · simp [removeFile, hA, ih]
    · simp [removeFile, hA, ih]

theorem removeFile_setFile (st : ChunkDir) (n : String) (d : List Nat) :
    removeFile (setFile st n d) n = removeFile st n := by
  simp [setFile, removeFile, removeFile_removeFile]

theorem setFile_setFile (st : ChunkDir) (n : String) (d e : List Nat) :
    setFile (setFile st n d) n e = setFile st n e := by
  simp only [setFile]
  congr 1
  show removeFile ((n, d) :: removeFile st n) n = removeFile st n
  simp [removeFile, removeFile_removeFile]

theorem applyFsOp_create_write (st : ChunkDir) (n : String) (d : List Nat) :
    applyFsOp (applyFsOp st (.create n)) (.write n d) = setFile st n d := by
  show applyFsOp (setFile st n []) (.write n d) = setFile st n d
  have hlk : lookupFile (setFile st n []) n = some [] := by
    rw [lookupFile_setFile]; simp
  simp [applyFsOp, hlk, setFile_setFile]

theorem applyFsOps_dl_success (st : ChunkDir) (h : String) (body : List Nat) :
    applyFsOps st [.create (h ++ ".tmp"), .write (h ++ ".tmp") body, .rename (h ++ ".tmp") h]
      = setFile (removeFile (setFile st (h ++ ".tmp") body) (h ++ ".tmp")) h body := by
  simp only [applyFsOps, List.foldl_cons, List.foldl_nil]
  rw [applyFsOp_create_write]
  have hlk : lookupFile (setFile st (h ++ ".tmp") body) (h ++ ".tmp") = some body := by
    rw [lookupFile_setFile]; simp
  simp [applyFsOp, hlk]

theorem applyFsOps_dl_mismatch (st : ChunkDir) (tmp : String) (body : List Nat) :
    applyFsOps st [.create tmp, .write tmp body, .remove tmp] = removeFile st tmp := by
  simp only [applyFsOps, List.foldl_cons, List.foldl_nil]
  rw [applyFsOp_create_write]
  simp [applyFsOp, removeFile_setFile]

theorem dlOps_success (server : String → Option (Nat × List Nat)) (h : String)
    (body : List Nat) (hs : server h = some (200, body)) (hsha : sha256Hex body = h) :
    downloadChunkOps server h
      = ([.create (h ++ ".tmp"), .write (h ++ ".tmp") body, .rename (h ++ ".tmp") h], .ok) := by
  simp [downloadChunkOps, hs, hsha]

theorem dlOps_mismatch (server : String → Option (Nat × List Nat)) (h : String)
    (body : List Nat) (hs : server h = some (200, body)) (hsha : sha256Hex body ≠ h) :
    downloadChunkOps server h
      = ([.create (h ++ ".tmp"), .write (h ++ ".tmp") body, .remove (h ++ ".tmp")],
         .integrityErr h (sha256Hex body)) := by
  simp [downloadChunkOps, hs, hsha]

theorem dl_invariant (server : String → Option (Nat × List Nat)) (h : String) (st : ChunkDir) :
    ∀ n c, lookupFile (downloadChunk server h st).1 n = some c →
      lookupFile st n = some c ∨ sha256Hex c = n := by
  intro n c
  match hs : server h with
  | none =>
    simp [downloadChunk, downloadChunkOps, hs, applyFsOps]
    exact fun h2 => Or.inl h2
  | some (status, body) =>
    by_cases h200 : status ≠ 200
    · simp [downloadChunk, downloadChunkOps, hs, h200, applyFsOps]
      exact fun h2 => Or.inl h2
    · simp only [ne_eq, not_not] at h200
      subst h200
      by_cases hsha : sha256Hex body = h
      · intro hlk
        rw [downloadChunk, dlOps_success server h body hs hsha] at hlk
        simp only at hlk
        rw [applyFsOps_dl_success, lookupFile_setFile] at hlk
        by_cases hn : n = h
        · rw [if_pos hn] at hlk
          right
          obtain rfl := Option.some_inj.mp hlk
          rw [hn]
          exact hsha
        · rw [if_neg hn, lookupFile_removeFile] at hlk
          by_cases ht : n = h ++ ".tmp"
          · rw [if_pos ht] at hlk
            exact absurd hlk (by simp)
          · rw [if_neg ht, lookupFile_setFile, if_neg ht] at hlk
            exact Or.inl hlk
      · intro hlk
        rw [downloadChunk, dlOps_mismatch server h body hs hsha] at hlk
        simp only at hlk
        rw [applyFsOps_dl_mismatch, lookupFile_removeFile] at hlk
        by_cases ht : n = h ++ ".tmp"
        · rw [if_pos ht] at hlk
          exact absurd hlk (by simp)
        · rw [if_neg ht] at hlk
          exact Or.inl hlk

theorem dl_preserves_none (server : String → Option (Nat × List Nat)) (h : String)
    (st : ChunkDir) (k : String) (hk : k ≠ h) (h0 : lookupFile st k = none) :
    lookupFile (downloadChunk server h st).1 k = none := by
  match hs : server h with
  | none => simpa [downloadChunk, downloadChunkOps, hs, applyFsOps] using h0
  | some (status, body) =>
    by_cases h200 : status ≠ 200
    · simpa [downloadChunk, downloadChunkOps, hs, h200, applyFsOps] using h0
    · simp only [ne_eq, not_not] at h200
      subst h200
      by_cases hsha : sha256Hex body = h
      · rw [downloadChunk, dlOps_success server h body hs hsha]
        simp only
        rw [applyFsOps_dl_success, lookupFile_setFile, if_neg hk, lookupFile_removeFile]
        by_cases ht : k = h ++ ".tmp"
        · rw [if_pos ht]
        · rw [if_neg ht, lookupFile_setFile, if_neg ht]
          exact h0
      · rw [downloadChunk, dlOps_mismatch server h body hs hsha]
        simp only
        rw [applyFsOps_dl_mismatch, lookupFile_removeFile]
        by_cases ht : k = h ++ ".tmp"
        · rw [if_pos ht]
        · rw [if_neg ht]
          exact h0

theorem peer_fold_err_stable (server : String → Option (Nat × List Nat)) :
    ∀ (l : List ChunkInfo) (st : ChunkDir) (e : DlResult),
      (l.foldl (peerDownloadStep server) (st, some e)).2 = some e := by
  intro l
  induction l with
  | nil => intro st e; rfl
  | cons c t ih =>
    intro st e
    rw [List.foldl_cons]
    by_cases hskip : (lookupFile st c.hash).isSome
    · rw [show peerDownloadStep server (st, some e) c = (st, some e) from by
        simp [peerDownloadStep, hskip]]
      exact ih st e
    · rw [show peerDownloadStep server (st, some e) c
          = ((downloadChunk server c.hash st).1, some e) from by
        simp [peerDownloadStep, hskip]]
      exact ih _ e

theorem peer_fold_inv (server : String → Option (Nat × List Nat)) :
    ∀ (l : List ChunkInfo) (st : ChunkDir) (e : Option DlResult) (n : String) (c : List Nat),
      lookupFile (l.foldl (peerDownloadStep server) (st, e)).1 n = some c →
      lookupFile st n = some c ∨ sha256Hex c = n := by
  intro l
  induction l with
  | nil => intro st e n c h; exact Or.inl h
  | cons ch t ih =>
    intro st e n c h
    rw [List.foldl_cons] at h
    by_cases hskip : (lookupFile st ch.hash).isSome
    · rw [show peerDownloadStep server (st, e) ch = (st, e) from by
        simp [peerDownloadStep, hskip]] at h
      exact ih st e n c h
    · rw [show peerDownloadStep server (st, e) ch
          = ((downloadChunk server ch.hash st).1,
             e <|> (if (downloadChunk server ch.hash st).2 = .ok then none
                    else some (downloadChunk server ch.hash st).2)) from by
        simp [peerDownloadStep, hskip]] at h
      rcases ih _ _ n c h with h2 | h2
      · exact dl_invariant server ch.hash st n c h2
      · exact Or.inr h2

theorem peer_fold_mismatch (server : String → Option (Nat × List Nat)) (ci : ChunkInfo)
    (status : Nat) (body : List Nat)
    (hs : server ci.hash = some (status, body)) (h200 : status = 200)
    (hne : sha256Hex body ≠ ci.hash) :
    ∀ (l : List ChunkInfo) (st : ChunkDir) (e : Option DlResult),
      lookupFile st ci.hash = none →
      lookupFile (l.foldl (peerDownloadStep server) (st, e)).1 ci.hash = none
      ∧ ((ci ∈ l ∨ e ≠ none) → (l.foldl (peerDownloadStep server) (st, e)).2 ≠ none) := by
  subst h200
  intro l
  induction l with
  | nil =>
    intro st e h0
    refine ⟨h0, ?_⟩
    rintro (hmem | heno)
    · exact absurd hmem (List.not_mem_nil ci)
    · exact heno
  | cons ch t ih =>
    intro st e h0
    rw [List.foldl_cons]
    by_cases hskip : (lookupFile st ch.hash).isSome
    · have hchne : ch.hash ≠ ci.hash := by
        intro hcc
        rw [hcc, h0] at hskip
        exact absurd hskip (by simp)
      rw [show peerDownloadStep server (st, e) ch = (st, e) from by
        simp [peerDownloadStep, hskip]]
      have := ih st e h0
      refine ⟨this.1, ?_⟩
      rintro (hmem | heno)
      · rcases List.mem_cons.mp hmem with rfl | hmem2
        · exact absurd rfl hchne
        · exact this.2 (Or.inl hmem2)
      · exact this.2 (Or.inr heno)
    · by_cases hch : ch.hash = ci.hash
      · -- this chunk is the corrupted one: mismatch branch
        have hsc : server ch.hash = some (200, body) := by rw [hch]; exact hs
        have hnec : sha256Hex body ≠ ch.hash := by rw [hch]; exact hne
        have hdl2 : (downloadChunk server ch.hash st).2
            = .integrityErr ch.hash (sha256Hex body) := by
          rw [downloadChunk, dlOps_mismatch server ch.hash body hsc hnec]
        have hdl1 : lookupFile (downloadChunk server ch.hash st).1 ci.hash = none := by
          rw [downloadChunk, dlOps_mismatch server ch.hash body hsc hnec]
          simp only
          rw [applyFsOps_dl_mismatch, lookupFile_removeFile]
          by_cases ht : ci.hash = ch.hash ++ ".tmp"
          · rw [if_pos ht]
          · rw [if_neg ht]; exact h0
        rw [show peerDownloadStep server (st, e) ch
            = ((downloadChunk server ch.hash st).1,
               e <|> some (.integrityErr ch.hash (sha256Hex body))) from by
          simp [peerDownloadStep, hskip, hdl2]]
        have he2 : (e <|> some (DlResult.integrityErr ch.hash (sha256Hex body))) ≠ none := by
          cases e <;> simp
        have := ih _ (e <|> some (.integrityErr ch.hash (sha256Hex body))) hdl1
        exact ⟨this.1, fun _ => this.2 (Or.inr he2)⟩
      · have hdl1 : lookupFile (downloadChunk server ch.hash st).1 ci.hash = none :=
          dl_preserves_none server ch.hash st ci.hash (fun h2 => hch h2.symm) h0
        rw [show peerDownloadStep server (st, e) ch
            = ((downloadChunk server ch.hash st).1,
               e <|> (if (downloadChunk server ch.hash st).2 = .ok then none
                      else some (downloadChunk server ch.hash st).2)) from by
          simp [peerDownloadStep, hskip]]
        have := ih _ (e <|> (if (downloadChunk server ch.hash st).2 = .ok then none
            else some (downloadChunk server ch.hash st).2)) hdl1
        refine ⟨this.1, ?_⟩
        rintro (hmem | heno)
        · rcases List.mem_cons.mp hmem with rfl | hmem2
          · exact absurd hch (fun hcc => hcc rfl)
          · exact this.2 (Or.inl hmem2)
        · have he2 : (e <|> (if (downloadChunk server ch.hash st).2 = .ok then none
              else some (downloadChunk server ch.hash st).2)) ≠ none := by
            cases e with
            | none => exact absurd rfl heno
            | some x => simp
          exact this.2 (Or.inr he2)

theorem dl_mismatch (server : String → Option (Nat × List Nat)) (hash : String)
    (status : Nat) (body : List Nat) (st : ChunkDir)
    (hs : server hash = some (status, body)) (h200 : status = 200)
    (hne : sha256Hex body ≠ hash) :
    (downloadChunk server hash st).2 = .integrityErr hash (sha256Hex body)
    ∧ lookupFile (downloadChunk server hash st).1 (hash ++ ".tmp") = none
    ∧ ∀ k, k ≠ hash ++ ".tmp" → lookupFile (downloadChunk server hash st).1 k = lookupFile st k := by
  subst h200
  refine ⟨?_, ?_, ?_⟩
  · rw [downloadChunk, dlOps_mismatch server hash body hs hne]
  · rw [downloadChunk, dlOps_mismatch server hash body hs hne]
    simp only
    rw [applyFsOps_dl_mismatch, lookupFile_removeFile, if_pos rfl]
  · intro k hk
    rw [downloadChunk, dlOps_mismatch server hash body hs hne]
    simp only
    rw [applyFsOps_dl_mismatch, lookupFile_removeFile, if_neg hk]

/-- C1: every peer-downloaded chunk is written to `<hash>.tmp`, hashed
while writing, and renamed to `<hash>` only if the computed SHA-256
equals the requested hash; on mismatch the temp file is removed, the
whole peer sync fails, and no file whose contents do not hash to its
name appears under the hash name. -/
theorem c1_peer_integrity :
    (∀ (server : String → Option (Nat × List Nat)) (hash : String) (status : Nat)
        (body : List Nat) (st : ChunkDir),
      server hash = some (status, body) → status = 200 → sha256Hex body ≠ hash →
        (downloadChunk server hash st).2 = .integrityErr hash (sha256Hex body)
        ∧ lookupFile (downloadChunk server hash st).1 (hash ++ ".tmp") = none
        ∧ lookupFile (downloadChunk server hash st).1 hash = lookupFile st hash)
    ∧ (∀ (server : String → Option (Nat × List Nat)) (m : Manifest) (st : ChunkDir)
        (n : String) (c : List Nat),
        lookupFile (peerDownloadAll server m st).1 n = some c →
        lookupFile st n = some c ∨ sha256Hex c = n)
    ∧ (∀ (server : String → Option (Nat × List Nat)) (m : Manifest) (st : ChunkDir)
        (ci : ChunkInfo) (status : Nat) (body : List Nat), ci ∈ m.chunks →
        server ci.hash = some (status, body) → status = 200 → sha256Hex body ≠ ci.hash →
        lookupFile st ci.hash = none →
        (peerDownloadAll server m st).2 ≠ none
        ∧ lookupFile (peerDownloadAll server m st).1 ci.hash = none)
    ∧ (∀ (server : String → Option (Nat × List Nat)) (m : Manifest)
        (untar : List Nat → Option (List TarEntry)) (mirror cleanup : Bool)
        (failRemove : List String → Bool) (st : AgentDir),
        (peerDownloadAll server m st.chunks).2 ≠ none →
        (runPeer server m untar mirror cleanup failRemove st).2 = false) := by
  refine ⟨?_, ?_, ?_, ?_⟩
  · intro server hash status body st hs h200 hne
    obtain ⟨h1, h2, h3⟩ := dl_mismatch server hash status body st hs h200 hne
    exact ⟨h1, h2, h3 hash (string_ne_append_tmp hash)⟩
  · intro server m st n c h
    exact peer_fold_inv server m.chunks st none n c h
  · intro server m st ci status body hmem hs h200 hne h0
    have := peer_fold_mismatch server ci status body hs h200 hne m.chunks st none h0
    exact ⟨this.2 (Or.inl hmem), this.1⟩
  · intro server m untar mirror cleanup failRemove st hpd
    rcases hpe : peerDownloadAll server m st.chunks with ⟨c2, eo⟩
    cases eo with
    | none => rw [hpe] at hpd; exact absurd rfl hpd
    | some x => simp [runPeer, hpe]

/-- Witness for C1: the repository's own integrity scenario — the hub
serves `"EVIL DATA"` under `sha256("hello")`; the peer reports an error
and stores nothing under the hash. -/
theorem c1_peer_integrity_witness :
    (evilServer helloHash = some (200, strBytes "EVIL DATA")
      ∧ sha256Hex (strBytes "EVIL DATA") ≠ helloHash
      ∧ (⟨helloHash, 9⟩ : ChunkInfo) ∈ (Manifest.mk [⟨helloHash, 9⟩]).chunks
      ∧ lookupFile [] helloHash = none)
    ∧ ((peerDownloadAll evilServer ⟨[⟨helloHash, 9⟩]⟩ []).2 ≠ none
      ∧ lookupFile (peerDownloadAll evilServer ⟨[⟨helloHash, 9⟩]⟩ []).1 helloHash = none)
    ∧ (runPeer evilServer ⟨[⟨helloHash, 9⟩]⟩ untarEmptyOnly true false (fun _ => false)
        ⟨[], none, []⟩).2 = false :=
  have hne : sha256Hex (strBytes "EVIL DATA") ≠ helloHash := by decide
  have h3 := c1_peer_integrity.2.2.1 evilServer ⟨[⟨helloHash, 9⟩]⟩ [] ⟨helloHash, 9⟩ 200
    (strBytes "EVIL DATA") (List.mem_singleton.mpr rfl) (by rfl) rfl hne rfl
  ⟨⟨by rfl, hne, List.mem_singleton.mpr rfl, rfl⟩, h3,
    c1_peer_integrity.2.2.2 evilServer ⟨[⟨helloHash, 9⟩]⟩ untarEmptyOnly true false
      (fun _ => false) ⟨[], none, []⟩ h3.1⟩

/-! # Claim C2 — chunks directory name hygiene -/

theorem mem_removeFile (st : ChunkDir) (n : String) :
    ∀ p, p ∈ removeFile st n → p ∈ st := by
  induction st with
  | nil => intro p h; exact absurd h (List.not_mem_nil p)
  | cons hd tl ih =>
    obtain ⟨a, b⟩ := hd
    intro p h
    by_cases hA : a = n
    · rw [show removeFile ((a, b) :: tl) n = removeFile tl n from by simp [removeFile, hA]] at h
      exact List.mem_cons_of_mem _ (ih p h)
    · rw [show removeFile ((a, b) :: tl) n = (a, b) :: removeFile tl n from by
        simp [removeFile, hA]] at h
      rcases List.mem_cons.mp h with rfl | h2
      · exact List.mem_cons_self _ _
      · exact List.mem_cons_of_mem _ (ih p h2)

theorem ingest_store_hex (tarIn : List TarEntry) (st : AgentDir)
    (h0 : ∀ p ∈ st.chunks, isHexHash p.1 = true)
    (h1 : ∀ e ∈ tarIn, suspiciousName e.name = false → e.name ≠ ManifestFileName →
        isHexHash (goBase e.name) = true) :
    ∀ p ∈ (tarIn.foldl ingestStoreEntry st).chunks, isHexHash p.1 = true := by
  induction tarIn generalizing st with
  | nil => exact h0
  | cons e t ih =>
    rw [List.foldl_cons]
    apply ih
    · intro p hp
      by_cases hsus : suspiciousName e.name
      · rw [show ingestStoreEntry st e = st from by
          unfold ingestStoreEntry
          rw [if_pos hsus]] at hp
        exact h0 p hp
      · by_cases hman : e.name = ManifestFileName
        · rw [show ingestStoreEntry st e = { st with manifestFile := some e.data } from by
            unfold ingestStoreEntry
            rw [if_neg hsus, if_pos hman]] at hp
          exact h0 p hp
        · rw [show ingestStoreEntry st e
              = { st with chunks := setFile st.chunks (goBase e.name) e.data } from by
            unfold ingestStoreEntry
            rw [if_neg hsus, if_neg hman]
            rw [show applyFsOps st.chunks (ingestChunkOps (goBase e.name) e.data)
                = setFile st.chunks (goBase e.name) e.data from by
              simp only [ingestChunkOps, applyFsOps, List.foldl_cons, List.foldl_nil]
              exact applyFsOp_create_write st.chunks (goBase e.name) e.data]] at hp
          simp only [setFile] at hp
          rcases List.mem_cons.mp hp with rfl | h2
          · exact h1 e (List.mem_cons_self e t) (by simpa using hsus) hman
          · exact h0 p (mem_removeFile st.chunks (goBase e.name) p h2)
    · intro e2 he2
      exact h1 e2 (List.mem_cons_of_mem e he2)

theorem runIngest_chunks_cases (untar : List Nat → Option (List TarEntry))
    (tarIn : List TarEntry) (mirror cleanup : Bool) (failRemove : List String → Bool)
    (st : AgentDir) :
    (runIngest untar tarIn mirror cleanup failRemove st).1.chunks
        = (tarIn.foldl ingestStoreEntry st).chunks
    ∨ (runIngest untar tarIn mirror cleanup failRemove st).1.chunks = [] := by
  cases hmf : (tarIn.foldl ingestStoreEntry st).manifestFile with
  | none => left; simp [runIngest, hmf]
  | some mb =>
    cases hpm : parseManifest (bytesToStr mb) with
    | none => left; simp [runIngest, hmf, hpm]
    | some m =>
      cases hap : applyManifestModel untar (tarIn.foldl ingestStoreEntry st) m with
      | none => left; simp [runIngest, hmf, hpm, hap]
      | some pc =>
        obtain ⟨payload2, created⟩ := pc
        cases cleanup with
        | true => right; simp [runIngest, hmf, hpm, hap, mirrorAndCleanup]
        | false =>
          left
          cases mirror <;> simp [runIngest, hmf, hpm, hap, mirrorAndCleanup]

/-- C2 counterexample: ingest stores any accepted non-manifest entry
into the chunks directory under its base name with no hex validation; a
tar with entry `evil.txt` completes successfully and leaves
`<chunks>/evil.txt`, whose name is not a lowercase hex SHA-256. -/
theorem c2_nonhex_chunk_counterexample :
    (runIngest untarEmptyOnly
      [⟨"evil.txt", false, [9, 9]⟩, ⟨"manifest.json", false, strBytes "\x7b\"chunks\":null\x7d"⟩]
      false false (fun _ => false) ⟨[], none, []⟩).2 = true
    ∧ ((runIngest untarEmptyOnly
      [⟨"evil.txt", false, [9, 9]⟩, ⟨"manifest.json", false, strBytes "\x7b\"chunks\":null\x7d"⟩]
      false false (fun _ => false) ⟨[], none, []⟩).1.chunks.map Prod.fst) = ["evil.txt"]
    ∧ isHexHash "evil.txt" = false := by
  refine ⟨by rfl, by rfl, by rfl⟩

/-- C2 (amended): ingest performs no hex validation — each accepted
non-manifest entry is stored under `<chunks>/<base name>`; consequently
the chunks directory contains only hex names after ingest provided it
did before and every accepted non-manifest entry of the tar has a hex
base name. -/
theorem c2_chunks_dir_hex_names (untar : List Nat → Option (List TarEntry)) (tarIn : List TarEntry)
    (mirror cleanup : Bool) (failRemove : List String → Bool) (st : AgentDir)
    (h0 : ∀ p ∈ st.chunks, isHexHash p.1 = true)
    (h1 : ∀ e ∈ tarIn, suspiciousName e.name = false → e.name ≠ ManifestFileName →
        isHexHash (goBase e.name) = true) :
    ∀ p ∈ (runIngest untar tarIn mirror cleanup failRemove st).1.chunks, isHexHash p.1 = true := by
  rcases runIngest_chunks_cases untar tarIn mirror cleanup failRemove st with hc | hc
  · rw [hc]
    exact ingest_store_hex tarIn st h0 h1
  · rw [hc]
    intro p hp
    exact absurd hp (List.not_mem_nil p)

/-- Witness for C2 at a tar carrying one hex-named chunk and the
manifest. -/
theorem c2_chunks_dir_hex_names_witness :
    ((∀ p ∈ (⟨[], none, []⟩ : AgentDir).chunks, isHexHash p.1 = true)
      ∧ (∀ e ∈ ([⟨helloHash, false, strBytes "hello"⟩,
            ⟨"manifest.json", false, strBytes "\x7b\"chunks\":null\x7d"⟩] : List TarEntry),
          suspiciousName e.name = false → e.name ≠ ManifestFileName →
          isHexHash (goBase e.name) = true))
    ∧ ∀ p ∈ (runIngest untarEmptyOnly
        [⟨helloHash, false, strBytes "hello"⟩,
         ⟨"manifest.json", false, strBytes "\x7b\"chunks\":null\x7d"⟩]
        false false (fun _ => false) ⟨[], none, []⟩).1.chunks, isHexHash p.1 = true :=
  ⟨⟨by simp, by decide⟩,
    c2_chunks_dir_hex_names untarEmptyOnly
      [⟨helloHash, false, strBytes "hello"⟩,
       ⟨"manifest.json", false, strBytes "\x7b\"chunks\":null\x7d"⟩]
      false false (fun _ => false) ⟨[], none, []⟩ (by simp) (by decide)⟩

/-! # Claim C8 — tar exclusion -/

theorem enumPaths_extends : ∀ (rel : List String) (cs : List (String × FsNode)),
    ∀ pe ∈ enumPaths rel cs, pe.1.take rel.length = rel ∧ rel.length < pe.1.length
  | rel, [] => by simp [enumPaths]
  | rel, (name, node) :: rest => by
    intro pe hpe
    rw [enumPaths] at hpe
    rcases List.mem_append.mp hpe with h | h
    · have hbase : pe.1.take (rel ++ [name]).length = rel ++ [name]
          ∧ (rel ++ [name]).length ≤ pe.1.length := by
        cases node with
        | file d =>
          rw [enumPathsNode] at h
          rcases List.mem_singleton.mp h with rfl
          exact ⟨List.take_of_length_le (le_refl _), le_refl _⟩
        | dir cs2 =>
          rw [enumPathsNode] at h
          rcases List.mem_cons.mp h with rfl | h2
          · exact ⟨List.take_of_length_le (le_refl _), le_refl _⟩
          · have := enumPaths_extends (rel ++ [name]) cs2 pe h2
            exact ⟨this.1, le_of_lt this.2⟩
      have hlen1 : (rel ++ [name]).length = rel.length + 1 := by simp
      constructor
      · have hmin : min rel.length (rel ++ [name]).length = rel.length := by simp
        have h3 : pe.1.take rel.length = (pe.1.take (rel ++ [name]).length).take rel.length := by
          rw [List.take_take, hmin]
        rw [h3, hbase.1]
        simpa using List.take_left rel [name]
      · have := hbase.2
        omega
    · exact enumPaths_extends rel rest pe h

theorem keptFrom_singleton (matcher : Option (String → Bool)) (rel : List String) (name : String) :
    keptFrom matcher rel.length (rel ++ [name])
      = !exclMatch matcher (joinComps (rel ++ [name])) := by
  unfold keptFrom
  have h1 : (rel ++ [name]).length - rel.length = 1 := by simp
  rw [h1]
  have h2 : (rel ++ [name]).take (rel.length + 0 + 1) = rel ++ [name] := by
    apply List.take_of_length_le
    simp
  rw [show List.range 1 = [0] from rfl, List.all_cons, List.all_nil, h2]
  exact Bool.and_true _

theorem keptFrom_succ (matcher : Option (String → Bool)) (b : Nat) (p : List String)
    (hb : b < p.length) :
    keptFrom matcher b p
      = ((!exclMatch matcher (joinComps (p.take (b + 1)))) && keptFrom matcher (b + 1) p) := by
  unfold keptFrom
  have hlen : p.length - b = (p.length - (b + 1)) + 1 := by omega
  rw [hlen, List.range_succ_eq_map]
  rw [List.all_cons, List.all_map]
  have hfun : ((fun i => !exclMatch matcher (joinComps (List.take (b + i + 1) p))) ∘ Nat.succ)
      = (fun i => !exclMatch matcher (joinComps (List.take (b + 1 + i + 1) p))) := by
    funext i
    simp only [Function.comp_apply]
    have ha : b + (i + 1) + 1 = b + 1 + i + 1 := by omega
    rw [show Nat.succ i = i + 1 from rfl, ha]
  rw [hfun]

theorem tarWalk_filter (matcher : Option (String → Bool)) :
    ∀ (rel : List String) (cs : List (String × FsNode)),
      tarWalkList matcher rel cs
        = ((enumPaths rel cs).filter (fun pe => keptFrom matcher rel.length pe.1)).map Prod.snd
  | rel, [] => by simp [tarWalkList, enumPaths]
  | rel, (name, node) :: rest => by
    rw [tarWalkList, enumPaths]
    rw [List.filter_append, List.map_append]
    by_cases hexcl : exclMatch matcher (joinComps (rel ++ [name]))
    · have hkeep : keptFrom matcher rel.length (rel ++ [name]) = false := by
        rw [keptFrom_singleton, hexcl]
        rfl
      rw [if_pos hexcl]
      have hnodefilter : (enumPathsNode (rel ++ [name]) node).filter
          (fun pe => keptFrom matcher rel.length pe.1) = [] := by
        rw [List.filter_eq_nil_iff]
        intro pe hpe
        cases node with
        | file d =>
          rw [enumPathsNode] at hpe
          rcases List.mem_singleton.mp hpe with rfl
          simp [hkeep]
        | dir cs2 =>
          rw [enumPathsNode] at hpe
          rcases List.mem_cons.mp hpe with rfl | h2
          · simp [hkeep]
          · obtain ⟨htake, hlt⟩ := enumPaths_extends (rel ++ [name]) cs2 pe h2
            have hlen1 : (rel ++ [name]).length = rel.length + 1 := by simp
            have hlen : rel.length < pe.1.length := by omega
            rw [keptFrom_succ matcher rel.length pe.1 hlen]
            have htk : pe.1.take (rel.length + 1) = rel ++ [name] := by
              rw [← hlen1]
              exact htake
            simp [htk, hexcl]
      rw [hnodefilter]
      simp only [List.map_nil, List.nil_append]
      exact tarWalk_filter matcher rel rest
    · have hkeep : keptFrom matcher rel.length (rel ++ [name]) = true := by
        rw [keptFrom_singleton]
        simp [hexcl]
      rw [if_neg hexcl]
      rw [tarWalk_filter matcher rel rest]
      congr 1
      cases node with
      | file d =>
        rw [tarWalkNode, enumPathsNode]
        simp [hkeep]
      | dir cs2 =>
        rw [tarWalkNode, enumPathsNode]
        rw [List.filter_cons]
        simp only [hkeep, if_true, List.map_cons]
        congr 1
        have hsub : (enumPaths (rel ++ [name]) cs2).filter
            (fun pe => keptFrom matcher rel.length pe.1)
            = (enumPaths (rel ++ [name]) cs2).filter
              (fun pe => keptFrom matcher (rel ++ [name]).length pe.1) := by
          apply List.filter_congr
          intro pe hpe
          obtain ⟨htake, hlt⟩ := enumPaths_extends (rel ++ [name]) cs2 pe hpe
          have hlen1 : (rel ++ [name]).length = rel.length + 1 := by simp
          have hlen : rel.length < pe.1.length := by omega
          rw [keptFrom_succ matcher rel.length pe.1 hlen]
          have htk : pe.1.take (rel.length + 1) = rel ++ [name] := by
            rw [← hlen1]
            exact htake
          rw [htk, hlen1]
          simp [hexcl]
        rw [hsub]
        exact tarWalk_filter matcher (rel ++ [name]) cs2

def seqIsPrefixOfChars : List Char → List Char → Bool
  | [], _ => true
  | _ :: _, [] => false
  | p :: ps, c :: cs => p = c && seqIsPrefixOfChars ps cs

def containsSeqChars (pat : List Char) : List Char → Bool
  | [] => seqIsPrefixOfChars pat []
  | c :: cs => seqIsPrefixOfChars pat (c :: cs) || containsSeqChars pat cs

/-- `MatchString` of the regular expression `\.log$|secret`: the relative
path ends in `.log` or contains `secret`. -/
def s4Matcher : Option (String → Bool) :=
  some (fun s => seqIsPrefixOfChars (".log".data.reverse) s.data.reverse
    || containsSeqChars ("secret".data) s.data)

/-- The S4 source tree, children in lexical order. -/
def s4Tree : FsNode := FsNode.dir
  [("ignore.log", FsNode.file [1]),
   ("keep.txt", FsNode.file [2]),
   ("secret", FsNode.dir [("key.pem", FsNode.file [3])]),
   ("subdir", FsNode.dir [("keep_sub.txt", FsNode.file [4])])]

/-- C8: the tar packer emits exactly the walk entries none of whose
source-relative path prefixes (the entry itself or an ancestor
directory) match the exclusion — a matching directory prunes its whole
subtree, a matching file is omitted, and every other entry is included;
instantiated at the S4 scenario (`\.log$|secret`), the packed regular
files are exactly `keep.txt` and `subdir/keep_sub.txt`. -/
theorem c8_tar_exclusion :
    (∀ (matcher : Option (String → Bool)) (srcBase : String) (cs : List (String × FsNode)),
      MakeTar matcher srcBase (FsNode.dir cs)
        = ((enumPaths [] cs).filter (fun pe => keptFrom matcher 0 pe.1)).map Prod.snd)
    ∧ ((MakeTar s4Matcher "src" s4Tree).filter (fun e => !e.isDir)).map TarEntry.name
        = ["keep.txt", "subdir/keep_sub.txt"] := by
  constructor
  · intro matcher srcBase cs
    exact tarWalk_filter matcher [] cs
  · rfl

/-! # Claims C5 and C6 — mirror reconciler -/

mutual

theorem treePathsNode_extends :
    ∀ (p : List String) (node : FsNode),
      ∀ q ∈ treePathsNode p node, q.take p.length = p ∧ p.length ≤ q.length
  | p, FsNode.file d => by
    intro q hq
    rcases List.mem_singleton.mp hq with rfl
    exact ⟨List.take_of_length_le (le_refl _), le_refl _⟩
  | p, FsNode.dir cs => by
    intro q hq
    rw [treePathsNode] at hq
    rcases List.mem_cons.mp hq with rfl | h2
    · exact ⟨List.take_of_length_le (le_refl _), le_refl _⟩
    · have := treePaths_extends p cs q h2
      exact ⟨this.1, le_of_lt this.2⟩

theorem treePaths_extends :
    ∀ (rel : List String) (cs : List (String × FsNode)),
      ∀ q ∈ treePaths rel cs, q.take rel.length = rel ∧ rel.length < q.length
  | rel, [] => by simp [treePaths]
  | rel, (name, node) :: rest => by
    intro q hq
    rw [treePaths] at hq
    rcases List.mem_append.mp hq with h | h
    · have hn := treePathsNode_extends (rel ++ [name]) node q h
      have hlen1 : (rel ++ [name]).length = rel.length + 1 := by simp
      constructor
      · have hmin : min rel.length (rel ++ [name]).length = rel.length := by simp
        have h3 : q.take rel.length = (q.take (rel ++ [name]).length).take rel.length := by
          rw [List.take_take, hmin]
        rw [h3, hn.1]
        simpa using List.take_left rel [name]
      · have := hn.2
        omega
    · exact treePaths_extends rel rest q h

end

theorem mem_drop_mono {α : Type} (a : α) (l : List α) (m n : Nat) (hmn : m ≤ n)
    (h : a ∈ l.drop n) : a ∈ l.drop m := by
  have : l.drop n = (l.drop m).drop (n - m) := by
    rw [List.drop_drop]
    congr 1
    omega
  rw [this] at h
  exact List.mem_of_mem_drop h

theorem head_mem_drop (q rel : List String) (name : String)
    (htake : q.take (rel.length + 1) = rel ++ [name]) (hlen : rel.length + 1 ≤ q.length) :
    name ∈ q.drop rel.length := by
  have hsplit : q.drop rel.length
      = (q.take (rel.length + 1)).drop rel.length ++ q.drop (rel.length + 1) := by
    conv_lhs => rw [← List.take_append_drop (rel.length + 1) q]
    rw [List.drop_append_eq_append_drop]
    have h1 : (q.take (rel.length + 1)).length = rel.length + 1 := by
      rw [List.length_take]
      omega
    rw [h1]
    have h2 : rel.length - (rel.length + 1) = 0 := by omega
    rw [h2]
    simp
  rw [hsplit, htake]
  have : (rel ++ [name]).drop rel.length = [name] := by
    rw [show rel.length = (rel).length from rfl]
    exact List.drop_left rel [name]
  rw [this]
  exact List.mem_append_left _ (List.mem_singleton.mpr rfl)

mutual

theorem cleanup_closure_node (keep : List (List String)) :
    ∀ (p : List String) (node : FsNode),
      (cleanupWalkNode keep (fun _ => false) p node).2 = none
      ∧ ∀ q ∈ treePathsNode p (cleanupWalkNode keep (fun _ => false) p node).1,
          q = p ∨ q ∈ keep ∨ ChunksDirName ∈ q.drop p.length
  | p, FsNode.file d => by
    constructor
    · rfl
    · intro q hq
      rw [cleanupWalkNode] at hq
      rcases List.mem_singleton.mp hq with rfl
      exact Or.inl rfl
  | p, FsNode.dir cs => by
    have hlist := cleanup_closure_list keep p cs
    constructor
    · rw [cleanupWalkNode]
      exact hlist.1
    · intro q hq
      rw [cleanupWalkNode, treePathsNode] at hq
      rcases List.mem_cons.mp hq with rfl | h2
      · exact Or.inl rfl
      · rcases hlist.2 q h2 with h | h
        · exact Or.inr (Or.inl h)
        · exact Or.inr (Or.inr h)

theorem cleanup_closure_list (keep : List (List String)) :
    ∀ (rel : List String) (cs : List (String × FsNode)),
      (cleanupWalkList keep (fun _ => false) rel cs).2 = none
      ∧ ∀ q ∈ treePaths rel (cleanupWalkList keep (fun _ => false) rel cs).1,
          q ∈ keep ∨ ChunksDirName ∈ q.drop rel.length
  | rel, [] => by
    constructor
    · rfl
    · intro q hq
      rw [cleanupWalkList, treePaths] at hq
      exact absurd hq (List.not_mem_nil q)
  | rel, (name, node) :: rest => by
    rw [cleanupWalkList]
    by_cases hchunks : isDirNode node && name = ChunksDirName
    · rw [if_pos hchunks]
      have hrest := cleanup_closure_list keep rel rest
      constructor
      · exact hrest.1
      · intro q hq
        rw [treePaths] at hq
        rcases List.mem_append.mp hq with h | h
        · -- inside the skipped krun-chunks subtree
          right
          have hname : name = ChunksDirName := by
            have h2 := hchunks
            simp only [Bool.and_eq_true, decide_eq_true_eq] at h2
            exact h2.2
          have hext := treePathsNode_extends (rel ++ [name]) node q h
          have hmem := head_mem_drop q rel name
            (by rw [show rel.length + 1 = (rel ++ [name]).length from by simp]; exact hext.1)
            (by have := hext.2; simp at this ⊢; omega)
          rw [← hname]
          exact hmem
        · exact hrest.2 q h
    · rw [if_neg hchunks]
      by_cases hkeep : keep.contains (rel ++ [name])
      · rw [if_pos hkeep]
        have hnode := cleanup_closure_node keep (rel ++ [name]) node
        simp only [hnode.1]
        have hrest := cleanup_closure_list keep rel rest
        constructor
        · exact hrest.1
        · intro q hq
          rw [treePaths] at hq
          rcases List.mem_append.mp hq with h | h
          · rcases hnode.2 q h with rfl | h2 | h2
            · exact Or.inl (List.mem_of_elem_eq_true hkeep)
            · exact Or.inl h2
            · right
              have hlen1 : (rel ++ [name]).length = rel.length + 1 := by simp
              exact mem_drop_mono _ q rel.length (rel ++ [name]).length (by omega) h2
          · exact hrest.2 q h
      · rw [if_neg hkeep]
        rw [if_neg (by simp)]
        exact cleanup_closure_list keep rel rest

end

mutual

theorem cleanup_keeps_node (keep : List (List String)) (failR : List String → Bool) :
    ∀ (p : List String) (node : FsNode) (q : List String),
      q ∈ treePathsNode p node →
      (∀ k, p.length < k → k ≤ q.length → q.take k ∈ keep) →
      q ∈ treePathsNode p (cleanupWalkNode keep failR p node).1
  | p, FsNode.file d => by
    intro q hq _
    exact hq
  | p, FsNode.dir cs => by
    intro q hq hroute
    rw [treePathsNode] at hq
    rw [cleanupWalkNode, treePathsNode]
    rcases List.mem_cons.mp hq with rfl | h2
    · exact List.mem_cons_self _ _
    · exact List.mem_cons_of_mem _ (cleanup_keeps_list keep failR p cs q h2 hroute)

theorem cleanup_keeps_list (keep : List (List String)) (failR : List String → Bool) :
    ∀ (rel : List String) (cs : List (String × FsNode)) (q : List String),
      q ∈ treePaths rel cs →
      (∀ k, rel.length < k → k ≤ q.length → q.take k ∈ keep) →
      q ∈ treePaths rel (cleanupWalkList keep failR rel cs).1
  | rel, [] => by
    intro q hq _
    rw [treePaths] at hq
    exact absurd hq (List.not_mem_nil q)
  | rel, (name, node) :: rest => by
    intro q hq hroute
    rw [treePaths] at hq
    rw [cleanupWalkList]
    rcases List.mem_append.mp hq with hqn | hqr
    · -- q lives in this child's subtree; the child is on q's route, hence kept
      have hext := treePathsNode_extends (rel ++ [name]) node q hqn
      have hlen1 : (rel ++ [name]).length = rel.length + 1 := by simp
      have htk : q.take (rel.length + 1) = rel ++ [name] := by
        rw [← hlen1]
        exact hext.1
      have hmemk : (rel ++ [name]) ∈ keep := by
        have := hroute (rel.length + 1) (by omega) (by omega)
        rwa [htk] at this
      by_cases hchunks : isDirNode node && name = ChunksDirName
      · rw [if_pos hchunks]
        rw [treePaths]
        exact List.mem_append_left _ hqn
      · rw [if_neg hchunks, if_pos (List.elem_eq_true_of_mem hmemk)]
        have hq2 := cleanup_keeps_node keep failR (rel ++ [name]) node q hqn
          (fun k hk1 hk2 => hroute k (by omega) hk2)
        cases hrn : (cleanupWalkNode keep failR (rel ++ [name]) node).2 with
        | some err =>
          simp only [hrn]
          rw [treePaths]
          exact List.mem_append_left _ hq2
        | none =>
          simp only [hrn]
          rw [treePaths]
          exact List.mem_append_left _ hq2
    · -- q lives among the later siblings
      by_cases hchunks : isDirNode node && name = ChunksDirName
      · rw [if_pos hchunks, treePaths]
        exact List.mem_append_right _ (cleanup_keeps_list keep failR rel rest q hqr hroute)
      · rw [if_neg hchunks]
        by_cases hkeep : keep.contains (rel ++ [name])
        · rw [if_pos hkeep]
          cases hrn : (cleanupWalkNode keep failR (rel ++ [name]) node).2 with
          | some err =>
            simp only [hrn]
            rw [treePaths]
            exact List.mem_append_right _ hqr
          | none =>
            simp only [hrn]
            rw [treePaths]
            exact List.mem_append_right _ (cleanup_keeps_list keep failR rel rest q hqr hroute)
        · rw [if_neg hkeep]
          by_cases hfail : failR (rel ++ [name])
          · rw [if_pos hfail, treePaths]
            exact List.mem_append_right _ hqr
          · rw [if_neg hfail]
            exact cleanup_keeps_list keep failR rel rest q hqr hroute

end

theorem mem_range_drop_one (k : Nat) : ∀ (n : Nat), 1 ≤ k → k < n → k ∈ (List.range n).drop 1
  | 0 => by intro _ h; omega
  | n + 1 => by
    intro h1 h2
    rw [List.range_succ]
    by_cases hn : k = n
    · subst hn
      rw [List.drop_append_of_le_length (by simp; omega)]
      exact List.mem_append_right _ (List.mem_singleton.mpr rfl)
    · have hk : k < n := by omega
      rw [List.drop_append_of_le_length (by simp; omega)]
      exact List.mem_append_left _ (mem_range_drop_one k n h1 hk)

theorem created_route_in_closure (created : List (List String)) (p : List String)
    (hp : p ∈ created) :
    ∀ k, 0 < k → k ≤ p.length → p.take k ∈ keepClosure created := by
  intro k hk1 hk2
  by_cases hfull : k = p.length
  · subst hfull
    rw [List.take_length]
    unfold keepClosure
    exact List.mem_append_left _ (List.mem_append_right _ hp)
  · have hklt : k < p.length := by omega
    unfold keepClosure
    apply List.mem_append_right
    apply List.mem_flatMap.mpr
    refine ⟨p, hp, ?_⟩
    unfold properAncestors
    apply List.mem_map.mpr
    exact ⟨k, mem_range_drop_one k p.length hk1 hklt, rfl⟩

def c5Tree : List (String × FsNode) :=
  [("keep.txt", FsNode.file [1]),
   ("sub", FsNode.dir [("krun-chunks", FsNode.dir [("x", FsNode.file [2])]),
                       ("payload.txt", FsNode.file [3])])]

/-- C5 counterexample: the walk skips any directory named `krun-chunks`
at any depth, so with created set `K = {sub/payload.txt}` the nested
directory `sub/krun-chunks` survives although it is not the internal
chunks directory or manifest, not in `K`, and not an ancestor of a
member of `K`. -/
theorem c5_nested_chunks_counterexample :
    (cleanupExtraneousFiles [["sub", "payload.txt"]] (fun _ => false) c5Tree).2 = none
    ∧ ["sub", "krun-chunks"] ∈ treePaths []
        (cleanupExtraneousFiles [["sub", "payload.txt"]] (fun _ => false) c5Tree).1
    ∧ ["sub", "krun-chunks"].take 1 ≠ [ChunksDirName]
    ∧ ["sub", "krun-chunks"] ≠ [ManifestFileName]
    ∧ ["sub", "krun-chunks"] ∉ ([["sub", "payload.txt"]] : List (List String))
    ∧ ¬ (∃ q ∈ ([["sub", "payload.txt"]] : List (List String)),
        ("sub" :: ["krun-chunks"]).length < q.length
        ∧ q.take ("sub" :: ["krun-chunks"]).length = ["sub", "krun-chunks"]) := by
  refine ⟨rfl, by decide, by decide, by decide, by decide, by decide⟩

/-- C5 (amended): when every removal succeeds the reconciler reports no
error and every surviving path is in the augmented keep map (the
internal paths, `K`, and all proper ancestors of members of `K`) or
passes through a directory named `krun-chunks` (skipped at any depth);
and no path in `K` is ever removed, for any removal-failure pattern. -/
theorem c5_mirror_closure :
    (∀ (created : List (List String)) (children : List (String × FsNode)),
      (cleanupExtraneousFiles created (fun _ => false) children).2 = none
      ∧ ∀ p ∈ treePaths [] (cleanupExtraneousFiles created (fun _ => false) children).1,
          p ∈ keepClosure created ∨ ChunksDirName ∈ p)
    ∧ (∀ (created : List (List String)) (failRemove : List String → Bool)
        (children : List (String × FsNode)) (p : List String),
        p ∈ created → p ∈ treePaths [] children →
        p ∈ treePaths [] (cleanupExtraneousFiles created failRemove children).1) := by
  constructor
  · intro created children
    have h := cleanup_closure_list (keepClosure created) [] children
    refine ⟨h.1, fun q hq => ?_⟩
    have := h.2 q hq
    simpa using this
  · intro created failR children p hp hmem
    exact cleanup_keeps_list (keepClosure created) failR [] children p hmem
      (fun k hk1 hk2 => created_route_in_closure created p hp k (by omega) hk2)

mutual

theorem cleanup_err_fail_node (keep : List (List String)) (failR : List String → Bool) :
    ∀ (p : List String) (node : FsNode) (q : List String),
      (cleanupWalkNode keep failR p node).2 = some q → failR q = true
  | p, FsNode.file d => by
    intro q h
    exact absurd h (by rw [cleanupWalkNode]; simp)
  | p, FsNode.dir cs => by
    intro q h
    rw [cleanupWalkNode] at h
    exact cleanup_err_fail_list keep failR p cs q h

theorem cleanup_err_fail_list (keep : List (List String)) (failR : List String → Bool) :
    ∀ (rel : List String) (cs : List (String × FsNode)) (q : List String),
      (cleanupWalkList keep failR rel cs).2 = some q → failR q = true
  | rel, [] => by
    intro q h
    exact absurd h (by rw [cleanupWalkList]; simp)
  | rel, (name, node) :: rest => by
    intro q h
    rw [cleanupWalkList] at h
    by_cases hchunks : isDirNode node && name = ChunksDirName
    · rw [if_pos hchunks] at h
      exact cleanup_err_fail_list keep failR rel rest q h
    · rw [if_neg hchunks] at h
      by_cases hkeep : keep.contains (rel ++ [name])
      · rw [if_pos hkeep] at h
        cases hrn : (cleanupWalkNode keep failR (rel ++ [name]) node).2 with
        | some err =>
          simp only [hrn] at h
          have heq : err = q := by simpa using h
          rw [← heq]
          exact cleanup_err_fail_node keep failR (rel ++ [name]) node err hrn
        | none =>
          simp only [hrn] at h
          exact cleanup_err_fail_list keep failR rel rest q h
      · rw [if_neg hkeep] at h
        by_cases hfail : failR (rel ++ [name])
        · rw [if_pos hfail] at h
          have heq : rel ++ [name] = q := by simpa using h
          rw [← heq]
          exact hfail
        · rw [if_neg hfail] at h
          exact cleanup_err_fail_list keep failR rel rest q h

end

/-- C6 (amended): a failed delete aborts the mirror walk — the error it
returns is a path whose removal failed, and the remaining extraneous
entries are left in place (at the two-file example, `b.txt` survives
when deleting `a.txt` fails, though it is deleted when removals
succeed); the sync as a whole still does not fail: `runIngest` exits
successfully whatever the removal failures. -/
theorem c6_mirror_best_effort :
    (∀ (keep : List (List String)) (failRemove : List String → Bool)
        (children : List (String × FsNode)) (q : List String),
      (cleanupWalkList keep failRemove [] children).2 = some q → failRemove q = true)
    ∧ (∀ (untar : List Nat → Option (List TarEntry)) (tarIn : List TarEntry)
        (cleanup : Bool) (failRemove : List String → Bool) (st : AgentDir)
        (mb : List Nat) (m : Manifest) (payload2 : List (String × FsNode))
        (created : List (List String)),
        (tarIn.foldl ingestStoreEntry st).manifestFile = some mb →
        parseManifest (bytesToStr mb) = some m →
        applyManifestModel untar (tarIn.foldl ingestStoreEntry st) m = some (payload2, created) →
        (runIngest untar tarIn true cleanup failRemove st).2 = true)
    ∧ (cleanupExtraneousFiles [] (fun p => p == ["a.txt"])
        [("a.txt", FsNode.file [1]), ("b.txt", FsNode.file [2])]).2 = some ["a.txt"]
    ∧ treePaths [] (cleanupExtraneousFiles [] (fun p => p == ["a.txt"])
        [("a.txt", FsNode.file [1]), ("b.txt", FsNode.file [2])]).1 = [["a.txt"], ["b.txt"]] := by
  refine ⟨?_, ?_, rfl, rfl⟩
  · intro keep failR children q h
    exact cleanup_err_fail_list keep failR [] children q h
  · intro untar tarIn cleanup failRemove st mb m payload2 created h1 h2 h3
    simp only [runIngest, h1, h2, h3, mirrorAndCleanup]

/-- Witness for C5 at a two-file destination with one kept file. -/
theorem c5_mirror_closure_witness :
    (["keep.txt"] ∈ ([["keep.txt"]] : List (List String))
      ∧ ["keep.txt"] ∈ treePaths [] [("junk.txt", FsNode.file [9]), ("keep.txt", FsNode.file [1])])
    ∧ ((cleanupExtraneousFiles [["keep.txt"]] (fun _ => false)
          [("junk.txt", FsNode.file [9]), ("keep.txt", FsNode.file [1])]).2 = none
      ∧ ∀ p ∈ treePaths [] (cleanupExtraneousFiles [["keep.txt"]] (fun _ => false)
          [("junk.txt", FsNode.file [9]), ("keep.txt", FsNode.file [1])]).1,
          p ∈ keepClosure [["keep.txt"]] ∨ ChunksDirName ∈ p)
    ∧ ["keep.txt"] ∈ treePaths []
        (cleanupExtraneousFiles [["keep.txt"]] (fun p2 => p2 == ["junk.txt"])
          [("junk.txt", FsNode.file [9]), ("keep.txt", FsNode.file [1])]).1 :=
  ⟨⟨by decide, by decide⟩,
    c5_mirror_closure.1 [["keep.txt"]]
      [("junk.txt", FsNode.file [9]), ("keep.txt", FsNode.file [1])],
    c5_mirror_closure.2 [["keep.txt"]] (fun p2 => p2 == ["junk.txt"])
      [("junk.txt", FsNode.file [9]), ("keep.txt", FsNode.file [1])] ["keep.txt"]
      (by decide) (by decide)⟩

/-- C6 counterexample: deleting `a.txt` fails, and the walk does not
proceed to the remaining extraneous entry `b.txt` (which the
failure-free walk does delete). -/
theorem c6_abort_counterexample :
    (cleanupExtraneousFiles [] (fun p => p == ["a.txt"])
        [("a.txt", FsNode.file [1]), ("b.txt", FsNode.file [2])]).2 = some ["a.txt"]
    ∧ treePaths [] (cleanupExtraneousFiles [] (fun p => p == ["a.txt"])
        [("a.txt", FsNode.file [1]), ("b.txt", FsNode.file [2])]).1 = [["a.txt"], ["b.txt"]]
    ∧ treePaths [] (cleanupExtraneousFiles [] (fun _ => false)
        [("a.txt", FsNode.file [1]), ("b.txt", FsNode.file [2])]).1 = [] :=
  ⟨rfl, rfl, rfl⟩

/-- Witness for C6: the aborted walk's error names a failing removal,
and the ingest carrying that failing mirror pass still succeeds. -/
theorem c6_mirror_best_effort_witness :
    ((cleanupWalkList [] (fun p => p == ["a.txt"]) []
        [("a.txt", FsNode.file [1]), ("b.txt", FsNode.file [2])]).2 = some ["a.txt"]
      ∧ (fun p => p == ["a.txt"]) ["a.txt"] = true)
    ∧ ((([⟨"manifest.json", false, strBytes "\x7b\"chunks\":null\x7d"⟩] : List TarEntry).foldl
          ingestStoreEntry
          ⟨[], none, [("a.txt", FsNode.file [1]), ("b.txt", FsNode.file [2])]⟩).manifestFile
          = some (strBytes "\x7b\"chunks\":null\x7d")
      ∧ (runIngest untarEmptyOnly [⟨"manifest.json", false, strBytes "\x7b\"chunks\":null\x7d"⟩]
          true false (fun p => p == ["a.txt"])
          ⟨[], none, [("a.txt", FsNode.file [1]), ("b.txt", FsNode.file [2])]⟩).2 = true) :=
  ⟨⟨rfl, c6_mirror_best_effort.1 [] (fun p => p == ["a.txt"])
      [("a.txt", FsNode.file [1]), ("b.txt", FsNode.file [2])] ["a.txt"] rfl⟩,
    ⟨by rfl,
      c6_mirror_best_effort.2.1 untarEmptyOnly
        [⟨"manifest.json", false, strBytes "\x7b\"chunks\":null\x7d"⟩] false
        (fun p => p == ["a.txt"])
        ⟨[], none, [("a.txt", FsNode.file [1]), ("b.txt", FsNode.file [2])]⟩
        _ ⟨[]⟩ _ _ (by rfl) (by rfl) (by rfl)⟩⟩

end Krun
namespace Krun

theorem dropLitChars_append : ∀ (lit rest : List Char),
    dropLitChars lit (lit ++ rest) = some rest
  | [], rest => rfl
  | c :: cs, rest => by
    rw [List.cons_append, dropLitChars, if_pos rfl]
    exact dropLitChars_append cs rest

theorem digitsToNat_append (ds : List Char) (c : Char) :
    digitsToNat (ds ++ [c]) = 10 * digitsToNat ds + (c.toNat - 48) := by
  unfold digitsToNat
  rw [List.foldl_append]
  simp [Nat.mul_comm]

theorem natDecAux_spec : ∀ (fuel n : Nat), n < fuel →
    (∀ c ∈ natDecAux fuel n, isDigitChar c = true)
    ∧ natDecAux fuel n ≠ []
    ∧ digitsToNat (natDecAux fuel n) = n
  | 0, n => by omega
  | fuel + 1, n => by
    intro hn
    by_cases h10 : n < 10
    · rw [show natDecAux (fuel + 1) n = [hexDigit n] from by rw [natDecAux, if_pos h10]]
      refine ⟨?_, by simp, ?_⟩
      · intro c hc
        rcases List.mem_singleton.mp hc with rfl
        interval_cases n <;> decide
      · show digitsToNat ([] ++ [hexDigit n]) = n
        rw [digitsToNat_append]
        show 10 * 0 + ((hexDigit n).toNat - 48) = n
        interval_cases n <;> decide
    · rw [show natDecAux (fuel + 1) n = natDecAux fuel (n / 10) ++ [hexDigit (n % 10)] from by
        rw [natDecAux, if_neg h10]]
      have hdiv : n / 10 < fuel := by
        have h1 : n / 10 < n := Nat.div_lt_self (by omega) (by omega)
        omega
      have ih := natDecAux_spec fuel (n / 10) hdiv
      have hmod : n % 10 < 10 := Nat.mod_lt n (by omega)
      have hdigit : isDigitChar (hexDigit (n % 10)) = true
          ∧ (hexDigit (n % 10)).toNat - 48 = n % 10 := by
        set r := n % 10 with hr
        interval_cases r <;> exact ⟨by decide, by decide⟩
      refine ⟨?_, by simp, ?_⟩
      · intro c hc
        rcases List.mem_append.mp hc with h | h
        · exact ih.1 c h
        · rcases List.mem_singleton.mp h with rfl
          exact hdigit.1
      · rw [digitsToNat_append, ih.2.2, hdigit.2]
        omega

theorem takeWhile_dropWhile_append (p : Char → Bool) :
    ∀ (ds rest : List Char), (∀ c ∈ ds, p c = true) →
      (∀ r rs, rest = r :: rs → p r = false) →
      (ds ++ rest).takeWhile p = ds ∧ (ds ++ rest).dropWhile p = rest
  | [], rest => by
    intro _ hrest
    cases rest with
    | nil => exact ⟨rfl, rfl⟩
    | cons r rs =>
      have := hrest r rs rfl
      constructor
      · rw [List.nil_append, List.takeWhile_cons, this]
        simp
      · rw [List.nil_append, List.dropWhile_cons, this]
        simp
  | d :: ds, rest => by
    intro hds hrest
    have hd := hds d (List.mem_cons_self d ds)
    have ih := takeWhile_dropWhile_append p ds rest
      (fun c hc => hds c (List.mem_cons_of_mem d hc)) hrest
    constructor
    · rw [List.cons_append, List.takeWhile_cons, hd]
      simp [ih.1]
    · rw [List.cons_append, List.dropWhile_cons, hd]
      simp [ih.2]

theorem goJsonEscapeChar_hex (c : Char) (hc : isHexDigitChar c = true) :
    goJsonEscapeChar c = [c] := by
  have hrange : (48 ≤ c.toNat ∧ c.toNat ≤ 57) ∨ (97 ≤ c.toNat ∧ c.toNat ≤ 102) := by
    unfold isHexDigitChar at hc
    simp only [Bool.or_eq_true, Bool.and_eq_true, decide_eq_true_eq] at hc
    exact hc
  unfold goJsonEscapeChar
  rw [if_neg (fun h => by rw [h] at hrange; simp at hrange)]
  rw [if_neg (fun h => by rw [h] at hrange; simp at hrange)]
  rw [if_neg (fun h => by rw [h] at hrange; simp at hrange)]
  rw [if_neg (fun h => by rw [h] at hrange; simp at hrange)]
  rw [if_neg (fun h => by rw [h] at hrange; simp at hrange)]
  rw [if_neg ?hcond]
  case hcond =>
    simp only [Bool.or_eq_true, decide_eq_true_eq]
    push_neg
    refine ⟨⟨⟨?_, ?_⟩, ?_⟩, ?_⟩
    · omega
    · intro h
      rw [h] at hrange
      simp at hrange
    · intro h
      rw [h] at hrange
      simp at hrange
    · intro h
      rw [h] at hrange
      simp at hrange

theorem flatMap_escape_id : ∀ (l : List Char), (∀ c ∈ l, isHexDigitChar c = true) →
    l.flatMap goJsonEscapeChar = l
  | [] => fun _ => rfl
  | c :: cs => fun h => by
    rw [List.flatMap_cons, goJsonEscapeChar_hex c (h c (List.mem_cons_self c cs)),
      flatMap_escape_id cs (fun x hx => h x (List.mem_cons_of_mem c hx))]
    rfl

theorem encodeJsonStr_hex (s : String) (hs : s.data.all isHexDigitChar = true) :
    (encodeJsonStr s).data = '"' :: s.data ++ ['"'] := by
  unfold encodeJsonStr
  rw [flatMap_escape_id s.data (List.all_eq_true.mp hs)]

theorem hex_ne_quote (c : Char) (hc : isHexDigitChar c = true) :
    (decide ¬ (c = '"')) = true := by
  apply decide_eq_true
  intro h
  rw [h] at hc
  simp [isHexDigitChar] at hc

theorem parseJsonStrChars_spec (s : String) (rest : List Char)
    (hs : s.data.all isHexDigitChar = true) :
    parseJsonStrChars ('"' :: (s.data ++ '"' :: rest)) = some (s, rest) := by
  have hsall := List.all_eq_true.mp hs
  have htd := takeWhile_dropWhile_append (fun c => decide ¬ (c = '"')) s.data ('"' :: rest)
    (fun c hc => hex_ne_quote c (hsall c hc))
    (fun r rs hr => by
      have : r = '"' := ((List.cons.inj hr).1).symm
      rw [this]
      simp)
  rw [parseJsonStrChars]
  simp only [htd.1, htd.2]
end Krun
namespace Krun

theorem parseNatChars_spec (n : Nat) (rest : List Char)
    (hrest : ∀ r rs, rest = r :: rs → isDigitChar r = false) :
    parseNatChars ((natToDec n).data ++ rest) = some (n, rest) := by
  have hspec := natDecAux_spec (n + 1) n (by omega)
  have htd := takeWhile_dropWhile_append isDigitChar (natDecAux (n + 1) n) rest hspec.1 hrest
  show parseNatChars (natDecAux (n + 1) n ++ rest) = some (n, rest)
  rw [parseNatChars]
  simp only [htd.1, htd.2]
  rw [if_neg hspec.2.1]
  rw [hspec.2.2]

theorem parseChunkInfoChars_spec (c : ChunkInfo) (rest : List Char)
    (hc : c.hash.data.all isHexDigitChar = true) :
    parseChunkInfoChars ((encodeChunkInfo c).data ++ rest) = some (c, rest) := by
  have hdata : (encodeChunkInfo c).data
      = "\x7b\"hash\":".data ++ ('"' :: (c.hash.data ++ '"' ::
        (",\"size\":".data ++ ((natToDec c.size).data ++ "\x7d".data)))) := by
    unfold encodeChunkInfo
    rw [String.data_append, String.data_append, String.data_append, String.data_append]
    rw [encodeJsonStr_hex c.hash hc]
    simp [List.append_assoc]
  rw [hdata]
  rw [parseChunkInfoChars]
  rw [List.append_assoc]
  rw [dropLitChars_append]
  simp only [Option.bind_eq_bind, Option.some_bind, List.cons_append, List.append_assoc,
    List.nil_append]
  rw [parseJsonStrChars_spec c.hash _ hc]
  simp only [Option.some_bind]
  have h2 : ∀ X : List Char,
      dropLitChars [',', '"', 's', 'i', 'z', 'e', '"', ':']
        (',' :: '"' :: 's' :: 'i' :: 'z' :: 'e' :: '"' :: ':' :: X) = some X :=
    fun X => rfl
  rw [h2]
  simp only [Option.some_bind]
  rw [parseNatChars_spec c.size ('\x7d' :: rest) (fun r rs hr => by
    rw [← (List.cons.inj hr).1]
    decide)]
  simp only [Option.some_bind]
  have h3 : dropLitChars ['\x7d'] ('\x7d' :: rest) = some rest := rfl
  rw [h3]
  rfl
end Krun
namespace Krun

theorem encodeChunkInfo_data_head (c : ChunkInfo) :
    (encodeChunkInfo c).data
      = '\x7b' :: ("\"hash\":".data ++ ((encodeJsonStr c.hash).data ++
          (",\"size\":".data ++ ((natToDec c.size).data ++ "\x7d".data)))) := by
  rw [encodeChunkInfo]
  rw [String.data_append, String.data_append, String.data_append, String.data_append]
  rw [List.append_assoc, List.append_assoc, List.append_assoc]
  rfl

theorem joinComma_encode_length : ∀ (cs : List ChunkInfo),
    cs.length ≤ (joinComma (cs.map encodeChunkInfo)).data.length
  | [] => Nat.le_refl 0
  | [c] => by
    show 1 ≤ (encodeChunkInfo c).data.length
    rw [encodeChunkInfo_data_head]
    simp only [List.length_cons]
    omega
  | c :: c2 :: cs2 => by
    have ih := joinComma_encode_length (c2 :: cs2)
    have hc1 : 1 ≤ (encodeChunkInfo c).data.length := by
      rw [encodeChunkInfo_data_head]
      simp only [List.length_cons]
      omega
    show (c :: c2 :: cs2).length ≤
      (encodeChunkInfo c ++ "," ++ joinComma ((c2 :: cs2).map encodeChunkInfo)).data.length
    rw [String.data_append, String.data_append]
    simp only [List.length_append, List.length_cons] at ih ⊢
    omega

theorem parseChunkListAux_spec (rest : List Char)
    (hrest : ∀ r rs, rest = r :: rs → r ≠ ',') :
    ∀ (cs : List ChunkInfo) (fuel : Nat), cs ≠ [] →
      (∀ c ∈ cs, c.hash.data.all isHexDigitChar = true) → cs.length ≤ fuel →
      parseChunkListAux fuel ((joinComma (cs.map encodeChunkInfo)).data ++ rest)
        = some (cs, rest)
  | [], _, hne, _, _ => absurd rfl hne
  | [c], fuel, _, hhex, hfuel => by
    have hc : c.hash.data.all isHexDigitChar = true := hhex c (List.mem_singleton.mpr rfl)
    match fuel, hfuel with
    | f + 1, _ =>
      show parseChunkListAux (f + 1) ((encodeChunkInfo c).data ++ rest) = some ([c], rest)
      rw [parseChunkListAux]
      rw [parseChunkInfoChars_spec c rest hc]
      simp only [Option.bind_eq_bind, Option.some_bind]
      split
      · rename_i s2
        exact absurd rfl (hrest ',' s2 rfl)
      · rfl
  | c :: c2 :: cs2, fuel, _, hhex, hfuel => by
    have hc : c.hash.data.all isHexDigitChar = true :=
      hhex c (List.mem_cons_self c (c2 :: cs2))
    have hsplit : (joinComma ((c :: c2 :: cs2).map encodeChunkInfo)).data ++ rest
        = (encodeChunkInfo c).data
            ++ (',' :: ((joinComma ((c2 :: cs2).map encodeChunkInfo)).data ++ rest)) := by
      show (encodeChunkInfo c ++ "," ++
          joinComma ((c2 :: cs2).map encodeChunkInfo)).data ++ rest = _
      rw [String.data_append, String.data_append]
      rw [List.append_assoc, List.append_assoc]
      rfl
    match fuel, hfuel with
    | f + 1, hfuel =>
      show parseChunkListAux (f + 1)
        ((joinComma ((c :: c2 :: cs2).map encodeChunkInfo)).data ++ rest)
        = some (c :: c2 :: cs2, rest)
      rw [hsplit]
      rw [parseChunkListAux]
      rw [parseChunkInfoChars_spec c _ hc]
      simp only [Option.bind_eq_bind, Option.some_bind]
      rw [parseChunkListAux_spec rest hrest (c2 :: cs2) f (by simp)
        (fun x hx => hhex x (List.mem_cons_of_mem c hx))
        (by simp only [List.length_cons] at hfuel ⊢; omega)]
      rfl
theorem parseChunksValue_eq_of_head (t : List Char) :
    parseChunksValue ('[' :: '\x7b' :: t)
      = (parseChunkListAux (('\x7b' :: t).length + 1) ('\x7b' :: t)).bind
          (fun p => match p.2 with
            | ']' :: s4 => some (p.1, s4)
            | _ => none) := rfl

theorem parseChunksValue_spec (cs : List ChunkInfo) (rest : List Char)
    (hcs : cs ≠ []) (hhex : ∀ c ∈ cs, c.hash.data.all isHexDigitChar = true) :
    parseChunksValue
        ('[' :: ((joinComma (cs.map encodeChunkInfo)).data ++ (']' :: rest)))
      = some (cs, rest) := by
  match cs, hcs with
  | c :: cs', _ =>
    have hhead : ∃ t, (joinComma ((c :: cs').map encodeChunkInfo)).data ++ (']' :: rest)
        = '\x7b' :: t := by
      match cs' with
      | [] =>
        exact ⟨_, by
          show (encodeChunkInfo c).data ++ (']' :: rest) = _
          rw [encodeChunkInfo_data_head]
          simp only [List.cons_append, List.append_assoc]
          rfl⟩
      | c2 :: cs2 =>
        exact ⟨_, by
          show (encodeChunkInfo c ++ "," ++
              joinComma ((c2 :: cs2).map encodeChunkInfo)).data ++ (']' :: rest) = _
          rw [String.data_append, String.data_append]
          rw [encodeChunkInfo_data_head]
          simp only [List.cons_append, List.append_assoc]
          rfl⟩
    obtain ⟨t, ht⟩ := hhead
    have hrest2 : ∀ r rs, (']' : Char) :: rest = r :: rs → r ≠ ',' := by
      intro r rs hr
      rw [← (List.cons.inj hr).1]
      decide
    have hfuel : (c :: cs').length ≤
        ((joinComma ((c :: cs').map encodeChunkInfo)).data ++ (']' :: rest)).length + 1 := by
      have := joinComma_encode_length (c :: cs')
      simp only [List.length_append]
      omega
    rw [ht]
    rw [parseChunksValue_eq_of_head t]
    rw [← ht]
    rw [parseChunkListAux_spec (']' :: rest) hrest2 (c :: cs') _ (by simp) hhex hfuel]
    rfl
theorem parseManifest_encode (m : Manifest)
    (hhex : ∀ c ∈ m.chunks, c.hash.data.all isHexDigitChar = true) :
    parseManifest (encodeManifest m) = some m := by
  match m, hhex with
  | ⟨[]⟩, _ => rfl
  | ⟨c :: cs'⟩, hhex =>
    have hdataM : (encodeManifest ⟨c :: cs'⟩).data
        = "\x7b\"chunks\":".data
            ++ ('[' :: ((joinComma ((c :: cs').map encodeChunkInfo)).data
                ++ (']' :: '\x7d' :: []))) := by
      show ("\x7b\"chunks\":" ++ ("[" ++ joinComma ((c :: cs').map encodeChunkInfo)
          ++ "]") ++ "\x7d").data = _
      rw [String.data_append, String.data_append, String.data_append, String.data_append]
      simp only [List.append_assoc, List.cons_append, List.nil_append]
    rw [parseManifest]
    rw [hdataM]
    rw [dropLitChars_append]
    simp only [Option.bind_eq_bind, Option.some_bind, List.nil_append]
    rw [parseChunksValue_spec (c :: cs') ('\x7d' :: []) (by simp) hhex]
    simp only [Option.some_bind]
    have h3 : dropLitChars ['\x7d'] ('\x7d' :: []) = some [] := rfl
    rw [h3]
    rfl
/-- C9: for every valid manifest (chunk hashes made of hex digits, as sha256
hex strings are), serializing with the canonical compact encoder, parsing the
result, and serializing again yields byte-identical JSON output (and parsing
recovers the manifest exactly). -/
theorem c9_manifest_roundtrip (m : Manifest)
    (hhex : ∀ c ∈ m.chunks, c.hash.data.all isHexDigitChar = true) :
    (parseManifest (encodeManifest m)).map encodeManifest
        = some (encodeManifest m)
      ∧ parseManifest (encodeManifest m) = some m := by
  refine ⟨?_, parseManifest_encode m hhex⟩
  rw [parseManifest_encode m hhex]
  rfl

/-- Witness for C9 at a concrete one-chunk manifest. -/
theorem c9_manifest_roundtrip_witness :
    (∀ c ∈ (⟨[⟨helloHash, 5⟩]⟩ : Manifest).chunks,
        c.hash.data.all isHexDigitChar = true)
      ∧ ((parseManifest (encodeManifest ⟨[⟨helloHash, 5⟩]⟩)).map encodeManifest
            = some (encodeManifest ⟨[⟨helloHash, 5⟩]⟩)
          ∧ parseManifest (encodeManifest ⟨[⟨helloHash, 5⟩]⟩)
            = some ⟨[⟨helloHash, 5⟩]⟩) :=
  ⟨by decide, c9_manifest_roundtrip ⟨[⟨helloHash, 5⟩]⟩ (by decide)⟩

end Krun
